import Mathlib

/-!
Verification of the npm-malwatch core against its specification.

The development shallowly embeds the TypeScript/JavaScript sources:
JavaScript values are modelled by the inductive `JsVal` (objects are
association lists in property order, getters/proxies do not exist in the
model), strings by Lean `String` (one `Char` per UTF-16 unit of the
source's strings), thrown exceptions by `Except`, and the JSONL sink by an
explicit state.  Definitions keep the source's names.
-/

namespace Malwatch

/-- A JavaScript value, as far as the observed code distinguishes them.
`func` covers functions and other exotic values (`typeof` not in
string/number/boolean/object, and not null/undefined/array). -/
inductive JsVal where
  | null
  | undef
  | bool (b : Bool)
  | num (n : Int)
  | str (s : String)
  | arr (elems : List JsVal)
  | obj (fields : List (String × JsVal))
  | func
deriving Repr

/-- `truncateString` from internal.ts: `value.slice(0, Math.max(0, maxLen - 1)) + ELLIPSIS`
when the string exceeds `maxLen`.  Nat subtraction matches `Math.max(0, maxLen - 1)`. -/
def truncateString (value : String) (maxLen : Nat) : String :=
  if value.length ≤ maxLen then value
  else String.mk (value.toList.take (maxLen - 1)) ++ "…"

/-- Substring test: `pat` occurs somewhere in `s`. -/
def strContains (s pat : String) : Bool :=
  let sl := s.toList
  let pl := pat.toList
  (List.range (sl.length + 1)).any (fun i => pl.isPrefixOf (sl.drop i))

/-- `String.prototype.startsWith`, character-wise. -/
def strStartsWith (s pre : String) : Bool :=
  pre.toList.isPrefixOf s.toList

/-- `String.prototype.trim`: whitespace stripped from both ends. -/
def strTrim (s : String) : String :=
  String.mk (((s.toList.dropWhile Char.isWhitespace).reverse.dropWhile
    Char.isWhitespace).reverse)

/-- `String.prototype.split` with a one-character separator. -/
def splitOnChar (c : Char) : List Char → List (List Char)
  | [] => [[]]
  | ch :: rest =>
    let r := splitOnChar c rest
    if ch == c then [] :: r
    else
      match r with
      | [] => [[ch]]
      | g :: gs => (ch :: g) :: gs

/-- String-level wrapper for `splitOnChar`. -/
def strSplitOn (c : Char) (s : String) : List String :=
  (splitOnChar c s.toList).map String.mk

/-- `looksSensitiveKey` from internal.ts: the case-insensitive regex
`(pass|token|secret|auth|cookie|session)` tested against the key, modelled
as a lower-cased substring check (the alternatives are ASCII). -/
def looksSensitiveKey (key : String) : Bool :=
  let k := String.mk (key.toList.map Char.toLower)
  strContains k "pass" || strContains k "token" || strContains k "secret" ||
    strContains k "auth" || strContains k "cookie" || strContains k "session"

/-- `redactObject` from internal.ts.  The `maxDepth <= 0` guard is the zero
case; every recursive call passes `maxDepth - 1`. -/
def redactObject : JsVal → Nat → JsVal
  | _, 0 => .str "<truncated>"
  | v, d + 1 =>
    match v with
    | .null => .null
    | .undef => .undef
    | .str s => .str (truncateString s 500)
    | .num n => .num n
    | .bool b => .bool b
    | .arr elems => .arr ((elems.take 20).map (fun x => redactObject x d))
    | .obj fields => .obj ((fields.take 40).map (fun kv =>
        if looksSensitiveKey kv.1 then (kv.1, JsVal.str "<redacted>")
        else (kv.1, redactObject kv.2 d)))
    | .func => .str "<unserializable>"

/-- Is this value exactly the literal string `"<redacted>"`? -/
def isRedacted : JsVal → Bool
  | .str s => s == "<redacted>"
  | _ => false

mutual
/-- Size bounds claimed for redacted output: every string value has at most
500 characters, arrays at most 20 elements, objects at most 40 keys. -/
def boundedB : JsVal → Bool
  | .str s => decide (s.length ≤ 500)
  | .arr xs => decide (xs.length ≤ 20) && boundedArr xs
  | .obj fs => decide (fs.length ≤ 40) && boundedFields fs
  | _ => true

def boundedArr : List JsVal → Bool
  | [] => true
  | x :: xs => boundedB x && boundedArr xs

def boundedFields : List (String × JsVal) → Bool
  | [] => true
  | kv :: kvs => boundedB kv.2 && boundedFields kvs
end

mutual
/-- No sensitive key is paired with anything but the literal `"<redacted>"`,
anywhere in the value. -/
def noLeakB : JsVal → Bool
  | .arr xs => noLeakArr xs
  | .obj fs => noLeakFields fs
  | _ => true

def noLeakArr : List JsVal → Bool
  | [] => true
  | x :: xs => noLeakB x && noLeakArr xs

def noLeakFields : List (String × JsVal) → Bool
  | [] => true
  | kv :: kvs =>
    (if looksSensitiveKey kv.1 then isRedacted kv.2 else noLeakB kv.2) && noLeakFields kvs
end

mutual
/-- `safeToString` from internal.ts, restricted to modelled values
(`URL`/`Buffer` instances are outside the value model; stringifying a
function yields its source text, abstracted as a fixed placeholder). -/
def safeToString : JsVal → String
  | .str s => s
  | .num n => toString n
  | .bool b => if b then "true" else "false"
  | .null => "null"
  | .undef => "undefined"
  | .arr xs => joinComma xs
  | .obj _ => "[object Object]"
  | .func => "function"

/-- `Array.prototype.toString`: elements joined by commas, null/undefined
elements rendered empty. -/
def joinComma : List JsVal → String
  | [] => ""
  | [x] => elemToString x
  | x :: xs => elemToString x ++ "," ++ joinComma xs

def elemToString : JsVal → String
  | .null => ""
  | .undef => ""
  | v => safeToString v
end

/-! ### Attribution (internal.ts): stack-line parsing and package identity -/

/-- Indices `i < l.length` whose character satisfies `p`. -/
def idxsWhere (p : Char → Bool) (l : List Char) : List Nat :=
  (List.range l.length).filter (fun i => ((l.drop i).head?.map p).getD false)

/-- Last index of character `c` in `l`. -/
def lastIdxOf (c : Char) (l : List Char) : Option Nat :=
  (idxsWhere (· == c) l).getLast?

/-- First index of character `c` in `l`. -/
def firstIdxOf (c : Char) (l : List Char) : Option Nat :=
  (idxsWhere (· == c) l).head?

/-- First index at which `pat` occurs as a sublist of `l`. -/
def firstSubIdx (pat l : List Char) : Option Nat :=
  ((List.range (l.length + 1)).filter (fun i => pat.isPrefixOf (l.drop i))).head?

/-- Last index at which `pat` occurs as a sublist of `l`. -/
def lastSubIdx (pat l : List Char) : Option Nat :=
  ((List.range (l.length + 1)).filter (fun i => pat.isPrefixOf (l.drop i))).getLast?

def allDigits (l : List Char) : Bool := !l.isEmpty && l.all Char.isDigit

/-- The end-anchored tail `:(\d+):(\d+)` of the stack-line regexes: the last
colon of `u` must be followed by a non-empty digit run, and the colon before
it likewise (greedy `(.*)` makes both groups the rightmost possible ones).
Returns the index of the colon that terminates group 1, paired with the
index of the last colon. -/
def colonAnatomy (u : List Char) : Option (Nat × Nat) :=
  match lastIdxOf ':' u with
  | none => none
  | some k2 =>
    if allDigits (u.drop (k2 + 1)) then
      match lastIdxOf ':' (u.take k2) with
      | none => none
      | some p =>
        if allDigits ((u.take k2).drop (p + 1)) then some (p, k2) else none
    else none

/-- Group 1 of `\((.*):(\d+):(\d+)\)$` on the trimmed line: the literal `(`
is the leftmost one preceding group 1 (leftmost match start). -/
def matchParenForm (t : List Char) : Option (List Char) :=
  match t.getLast? with
  | some ')' =>
    let u := t.dropLast
    match colonAnatomy u with
    | some (p, _) =>
      match firstIdxOf '(' u with
      | some i0 => if i0 < p then some ((u.take p).drop (i0 + 1)) else none
      | none => none
    | none => none
  | _ => none

/-- Group 1 of `at (.*):(\d+):(\d+)$` on the trimmed line. -/
def matchAtForm (t : List Char) : Option (List Char) :=
  match colonAnatomy t with
  | some (p, _) =>
    match firstSubIdx "at ".toList t with
    | some i => if i + 3 ≤ p then some ((t.take p).drop (i + 3)) else none
    | none => none
  | none => none

/-- `isProbablyFilePath` from internal.ts. -/
def isProbablyFilePath (p : String) : Bool :=
  if p.isEmpty then false
  else if strStartsWith p "node:" then false
  else if strStartsWith p "internal/" then false
  else if strStartsWith p "<" then false
  else true

/-- `extractFilePathFromStackLine` from internal.ts: try the parenthesised
form, then the bare `at path:line:col` form; a failed match, an empty
capture (falsy in JS) or a runtime-internal path falls through. -/
def extractFilePathFromStackLine (line : String) : Option String :=
  let t := (strTrim line).toList
  let g1 := (matchParenForm t).getD []
  if !g1.isEmpty && isProbablyFilePath (String.mk g1) then some (String.mk g1)
  else
    let g2 := (matchAtForm t).getD []
    if !g2.isEmpty && isProbablyFilePath (String.mk g2) then some (String.mk g2)
    else none

/-- `stackToCandidateFilePaths` from internal.ts. -/
def stackToCandidateFilePaths : Option String → List String
  | none => []
  | some stack => (strSplitOn '\n' stack).filterMap extractFilePathFromStackLine

/-- `toPosixPath` from internal.ts (`replaceAll('\\', '/')`). -/
def toPosixPath (p : String) : String :=
  String.mk (p.toList.map (fun ch => if ch = '\\' then '/' else ch))

/-- `packageNameFromFilePath` from internal.ts. -/
def packageNameFromFilePath (filePath : String) : Option String :=
  let p := toPosixPath filePath
  match lastSubIdx "/node_modules/".toList p.toList with
  | none => none
  | some idx =>
    let rest := String.mk (p.toList.drop (idx + 14))
    if rest.isEmpty then none
    else if strStartsWith rest "." then none
    else
      match (strSplitOn '/' rest).filter (fun s => !s.isEmpty) with
      | [] => none
      | p0 :: ps =>
        if strStartsWith p0 "@" then
          match ps with
          | [] => none
          | p1 :: _ => some (p0 ++ "/" ++ p1)
        else some p0

/-- `isPmPackageName` from internal.ts. -/
def isPmPackageName (pkgName : String) : Option String :=
  if pkgName = "npm" then some "npm"
  else if pkgName = "pnpm" then some "pnpm"
  else if strStartsWith pkgName "@npmcli/" then some "npm"
  else if strStartsWith pkgName "@pnpm/" then some "pnpm"
  else none

/-- `classifyPackageDisplayName` from internal.ts. -/
def classifyPackageDisplayName (pkgName : String) : String :=
  if isPmPackageName pkgName = some "npm" then "<pm:npm>"
  else if isPmPackageName pkgName = some "pnpm" then "<pm:pnpm>"
  else pkgName

/-- Node's POSIX `path.basename`: trailing slashes ignored, then the final
segment. -/
def pathBasename (p : String) : String :=
  let r := p.toList.reverse
  String.mk (((r.dropWhile (· == '/')).takeWhile (· != '/')).reverse)

/-- Ambient process state read by `inferPackageFromStack`; unset environment
variables are the empty string, matching the JS truthiness tests. -/
structure AttrEnv where
  npmPackageName : String
  initCwd : String
  cwd : String

/-- The candidate loop of `inferPackageFromStack`: skip frames without a
package name and frames of this tool itself. -/
def inferFromCandidates : List String → Option String
  | [] => none
  | c :: rest =>
    match packageNameFromFilePath c with
    | none => inferFromCandidates rest
    | some pkgName =>
      if pkgName = "npm-malwatch" then inferFromCandidates rest
      else some (classifyPackageDisplayName pkgName)

/-- `inferPackageFromStack` from internal.ts, including its fallbacks to
`process.env.npm_package_name` and `basename(INIT_CWD || cwd)`. -/
def inferPackageFromStack (env : AttrEnv) (stack : Option String) : String :=
  match inferFromCandidates (stackToCandidateFilePaths stack) with
  | some display => display
  | none =>
    if env.npmPackageName ≠ "" then classifyPackageDisplayName env.npmPackageName
    else
      let base := pathBasename (if env.initCwd ≠ "" then env.initCwd else env.cwd)
      if base ≠ "" then base else "<unknown>"

/-- Per-frame identity as the spec describes it: the first frame whose path
yields a package name other than this tool's own. -/
def frameIdentity (line : String) : Option String :=
  match (extractFilePathFromStackLine line).bind packageNameFromFilePath with
  | none => none
  | some n => if n = "npm-malwatch" then none else some n

/-- Modelled from the claim's words: scan frames top-down, classify the
first surviving identity, and return `<unknown>` whenever no frame matches. -/
def inferPackageFromStackClaimed (stack : Option String) : String :=
  let lines := match stack with | none => [] | some s => strSplitOn '\n' s
  match (lines.filterMap frameIdentity).head? with
  | some n => classifyPackageDisplayName n
  | none => "<unknown>"

/-! ### Event sink, filter policy, wrappers, tamper detector

Two preload implementations ship in the repository: `src/preload.ts`
(compiled to `dist/preload.cjs`) and the `PRELOAD_CJS` source string
generated by the Deno CLI.  They differ in `shouldEmitEvent` and in the
`pkg` attached to tamper records, so both are embedded.  The JSONL sink
stores whole event records (JSON serialization is modelled as identity);
the `ts`/`session`/`pid`/`ppid` fields carry no logic and are omitted. -/

structure MwError where
  name : String
  message : String
deriving Repr, DecidableEq

structure MwEvent where
  pkg : String
  op : String
  category : String
  args : List (String × JsVal)
  result : String
  error : Option MwError
deriving Repr

/-- Environment-derived preload configuration (`NPM_MALWATCH_FILTER`,
`NPM_MALWATCH_INCLUDE_PM === '1'`, `NPM_MALWATCH_HARDENING`). -/
structure FilterCfg where
  filter : String
  includePm : Bool
  hardening : String

/-- The defaults: `filter=package-only`, `includePm=false`, `hardening=detect`. -/
def defaultCfg : FilterCfg :=
  { filter := "package-only", includePm := false, hardening := "detect" }

/-- `shouldEmitForPackage`, identical in both preloads. -/
def shouldEmitForPackage (cfg : FilterCfg) (pkg : String) : Bool :=
  if cfg.includePm then true
  else if strStartsWith pkg "<pm:" then false
  else true

/-- `shouldEmitEvent` of the generated `PRELOAD_CJS` (preload-template):
drops only `<malwatch>` and, without `includePm`, `<pm:` identities. -/
def shouldEmitEventCjs (cfg : FilterCfg) (pkg : String) : Bool :=
  if cfg.filter ≠ "package-only" then true
  else if pkg = "<malwatch>" then false
  else if !shouldEmitForPackage cfg pkg then false
  else true

/-- `shouldEmitEvent` of `src/preload.ts` / `dist/preload.cjs`: additionally
drops `<unknown>`. -/
def shouldEmitEventTs (cfg : FilterCfg) (pkg : String) : Bool :=
  if cfg.filter ≠ "package-only" then true
  else if pkg = "<unknown>" then false
  else if pkg = "<malwatch>" then false
  else if !shouldEmitForPackage cfg pkg then false
  else true

/-- Modelled from the claim's words: a record is dropped precisely when
`filter=package-only` and either `pkg` is `<malwatch>`, or `includePm` is
false and `pkg` begins with `<pm:`. -/
def claimedEmit (cfg : FilterCfg) (pkg : String) : Bool :=
  !(cfg.filter == "package-only" &&
    (pkg == "<malwatch>" || (!cfg.includePm && strStartsWith pkg "<pm:")))

/-- Sink environment: whether `realFs.openSync` and `realFs.writeSync`
succeed when called. -/
structure SinkCfg where
  openOk : Bool
  writeOk : Bool

/-- Sink state: the lazily opened descriptor and the appended records. -/
structure SinkState where
  logFd : Option Nat
  lines : List MwEvent

/-- `ensureLogFd`: the `mkdirSync` attempt is swallowed, but `openSync` is
not guarded — its failure escapes as an exception. -/
def ensureLogFd (cfg : SinkCfg) (st : SinkState) : Except Unit (Nat × SinkState) :=
  match st.logFd with
  | some fd => .ok (fd, st)
  | none => if cfg.openOk then .ok (0, { st with logFd := some 0 }) else .error ()

/-- `writeLine`: the `writeSync` call is inside try/catch (write failures
drop the line silently), but the `ensureLogFd` call is outside it. -/
def writeLine (cfg : SinkCfg) (st : SinkState) (evt : MwEvent) : Except Unit SinkState :=
  match ensureLogFd cfg st with
  | .error e => .error e
  | .ok (_, st') =>
    .ok (if cfg.writeOk then { st' with lines := st'.lines ++ [evt] } else st')

/-- `logEvent`, parameterised by the preload variant's emit predicate. -/
def logEventWith (emit : FilterCfg → String → Bool) (fcfg : FilterCfg) (scfg : SinkCfg)
    (st : SinkState) (evt : MwEvent) : Except Unit SinkState :=
  if emit fcfg evt.pkg then writeLine scfg st evt else .ok st

/-- `logEvent` of `src/preload.ts`. -/
def logEventTs (fcfg : FilterCfg) (scfg : SinkCfg) (st : SinkState) (evt : MwEvent) :
    Except Unit SinkState :=
  logEventWith shouldEmitEventTs fcfg scfg st evt

/-- `logEvent` of the generated `PRELOAD_CJS`. -/
def logEventCjs (fcfg : FilterCfg) (scfg : SinkCfg) (st : SinkState) (evt : MwEvent) :
    Except Unit SinkState :=
  logEventWith shouldEmitEventCjs fcfg scfg st evt

/-- The startup record `recordStartup` writes (the identification fields
`ts`, `session`, `pid`, `ppid` lie outside the embedded record shape). -/
def startupEvent (logFile filt hard : String) : MwEvent :=
  { pkg := "<malwatch>", op := "startup", category := "tamper",
    args := [("logFile", JsVal.str logFile), ("filter", JsVal.str filt),
      ("hardening", JsVal.str hard)],
    result := "ok", error := none }

/-- The preload module's top-level code, up to the point a wrapper exists:
`recordStartup()` — a direct `writeLine`, bypassing the event filter — is
the first statement of the top-level `try`, before any `patch*` call.  If
its sink open fails, the top-level `catch` absorbs the error and no wrapper
is installed (`none`); otherwise every wrapper starts from the returned
state, whose log descriptor is open. -/
def preloadInstall (cfg : SinkCfg) (logFile filt hard : String) : Option SinkState :=
  match writeLine cfg { logFd := none, lines := [] } (startupEvent logFile filt hard) with
  | .ok st => some st
  | .error _ => none

/-- What a call to a `wrapSync` wrapper does from the observed caller's
point of view. -/
inductive WrapOutcome where
  | ret (v : JsVal)
  | thrown (e : MwError)
  | instrFailure
deriving Repr

/-- The `ok`-result event built by `wrapSync` (stack field omitted). -/
def okEvent (pkg op category : String) (args : List (String × JsVal)) : MwEvent :=
  { pkg, op, category, args, result := "ok", error := none }

/-- The `error`-result event built by `wrapSync`: name via `safeToString`,
message truncated to 500. -/
def errEvent (pkg op category : String) (args : List (String × JsVal)) (e : MwError) : MwEvent :=
  { pkg, op, category, args, result := "error",
    error := some { name := e.name, message := truncateString e.message 500 } }

/-- `wrapSync` of `src/preload.ts`, run on one call.  `original` is the
wrapped function's behaviour at these arguments; `pkg` is the attribution
result; `args` is `makeArgs`' output (total in the model).  Control flow is
the source's: on normal return, `logEvent` runs inside the `try`, so an
exception it raises (a sink-open failure) is caught by the `catch` block,
whose own `logEvent` fails the same way and escapes to the caller. -/
def wrapSyncRun (fcfg : FilterCfg) (scfg : SinkCfg) (st : SinkState)
    (pkg op category : String) (args : List (String × JsVal))
    (original : Except MwError JsVal) : WrapOutcome × SinkState :=
  match original with
  | .ok v =>
    match logEventTs fcfg scfg st (okEvent pkg op category args) with
    | .ok st' => (.ret v, st')
    | .error _ =>
      match logEventTs fcfg scfg st
          (errEvent pkg op category args { name := "Error", message := "EACCES" }) with
      | .ok st'' => (.instrFailure, st'')
      | .error _ => (.instrFailure, st)
  | .error e =>
    match logEventTs fcfg scfg st (errEvent pkg op category args e) with
    | .ok st' => (.thrown e, st')
    | .error _ => (.instrFailure, st)

/-- Which of the four checked functions still carry the
`__npm_malwatch_wrapped__` marker at detection time. -/
structure MarkerTable where
  writeFileSyncWrapped : Bool
  spawnWrapped : Bool
  httpRequestWrapped : Bool
  dnsLookupWrapped : Bool

/-- The check list of `detectTampering`, in source order. -/
def tamperChecks (t : MarkerTable) : List (String × Bool) :=
  [("fs.writeFileSync", t.writeFileSyncWrapped),
   ("child_process.spawn", t.spawnWrapped),
   ("http.request", t.httpRequestWrapped),
   ("dns.lookup", t.dnsLookupWrapped)]

/-- The tamper record emitted for a missing wrapper. -/
def tamperEvent (pkg target : String) : MwEvent :=
  { pkg, op := "tamper", category := "tamper",
    args := [("target", JsVal.str target), ("reason", JsVal.str "wrapper_missing")],
    result := "ok", error := none }

/-- The loop of `detectTampering` over the check list. -/
def runTamperChecks (logE : SinkState → MwEvent → Except Unit SinkState) (pkg : String) :
    SinkState → List (String × Bool) → Except Unit SinkState
  | st, [] => .ok st
  | st, (target, marked) :: rest =>
    if marked then runTamperChecks logE pkg st rest
    else
      match logE st (tamperEvent pkg target) with
      | .ok st' => runTamperChecks logE pkg st' rest
      | .error e => .error e

/-- `detectTampering` of `src/preload.ts`: records carry `pkg = "<unknown>"`
and go through the ts-variant filter. -/
def detectTamperingTs (fcfg : FilterCfg) (scfg : SinkCfg) (st : SinkState)
    (t : MarkerTable) : Except Unit SinkState :=
  if fcfg.hardening ≠ "detect" then .ok st
  else runTamperChecks (logEventTs fcfg scfg) "<unknown>" st (tamperChecks t)

/-- `detectTampering` of the generated `PRELOAD_CJS`: records carry the
stack-inferred identity and go through the cjs-variant filter. -/
def detectTamperingCjs (fcfg : FilterCfg) (scfg : SinkCfg) (st : SinkState)
    (inferredPkg : String) (t : MarkerTable) : Except Unit SinkState :=
  if fcfg.hardening ≠ "detect" then .ok st
  else runTamperChecks (logEventCjs fcfg scfg) inferredPkg st (tamperChecks t)

/-! ### Spawn-style argument summaries (src/preload.ts, patchChildProcess) -/

/-- JS object-literal field assignment: an existing key is overwritten in
place, a new key is appended (insertion order). -/
def objSet (fields : List (String × JsVal)) (key : String) (v : JsVal) :
    List (String × JsVal) :=
  if fields.any (fun kv => kv.1 == key) then
    fields.map (fun kv => if kv.1 == key then (key, v) else kv)
  else fields ++ [(key, v)]

/-- Spreading `adds` into an object literal that already holds `base`:
later properties override earlier ones. -/
def objSpread (base adds : List (String × JsVal)) : List (String × JsVal) :=
  adds.foldl (fun acc kv => objSet acc kv.1 kv.2) base

/-- Property lookup on the modelled object. -/
def objGet (fields : List (String × JsVal)) (key : String) : Option JsVal :=
  (fields.find? (fun kv => kv.1 == key)).map (·.2)

/-- `baseArgs` from the preload: the full `arguments` array, redacted. -/
def baseArgs (args : List JsVal) : List (String × JsVal) :=
  [("argv", redactObject (.arr args) 3)]

/-- `makeArgs` for spawn-style operations (`spawn`, `spawnSync`, `execFile`,
`execFileSync`, `fork`): `{ file, argv, ...baseArgs(args) }` — note the
spread comes last, so its `argv` overrides the one computed here. -/
def spawnMakeArgs (args : List JsVal) : List (String × JsVal) :=
  let a0 := args.getD 0 .undef
  let a1 := args.getD 1 .undef
  let file : JsVal := match a0 with
    | .str s => .str (truncateString s 300)
    | _ => .undef
  let argv : JsVal := match a1 with
    | .arr xs => .arr ((xs.map (fun x => JsVal.str (truncateString (safeToString x) 200))).take 20)
    | _ => .undef
  objSpread [("file", file), ("argv", argv)] (baseArgs args)

/-- Modelled from the claim's words: `args.argv` is the spawn argument
vector with each element truncated to 200 characters and at most 20
elements retained (when the second argument is an array). -/
def claimedSpawnArgv (args : List JsVal) : Option JsVal :=
  match args.getD 1 .undef with
  | .arr xs => some (.arr ((xs.take 20).map (fun x => JsVal.str (truncateString (safeToString x) 200))))
  | _ => none

/-! ### Preflight scanner (Deno preflight.ts and src/preflight.ts)

The directory walk and JSON parsing are I/O; the embedding takes as input
the full ordered lists of manifest paths the two layout listers would find
without a cap (`npmFound`, `pnpmFound` — the listers' own `max` arguments
turn these into `take`s of the same lists), together with the outcome of
reading each path.  `name` is the resolved display-relevant name (manifest
`name` field, else the parent directory's basename). -/

inductive ManifestOutcome where
  | missing
  | parseFail
  | parsed (name : String) (version : String) (scripts : List (String × String))

structure PreflightOptions where
  includePm : Bool
  maxPackages : Nat
  scriptKeys : List String

structure PreflightPackage where
  name : String
  version : String
  path : String
  scripts : List (String × String)
deriving Repr, DecidableEq

structure ScanOutcomeRec where
  totalPackagesScanned : Nat
  packagesWithScripts : Nat
  packages : List PreflightPackage
  parseErrors : Nat
  truncated : Bool
deriving Repr, DecidableEq

/-- `pickScripts`: requested keys whose value is a non-blank string, value
trimmed and truncated to 1000 characters. -/
def pickScripts (scripts : List (String × String)) (keys : List String) :
    List (String × String) :=
  keys.filterMap (fun k =>
    match (scripts.find? (fun kv => kv.1 == k)).map (·.2) with
    | some v => if strTrim v ≠ "" then some (k, truncateString (strTrim v) 1000) else none
    | none => none)

/-- Path collection of the Deno scanner: up to `max + 1` paths so that
truncation can be detected. -/
def collectDeno (npmFound pnpmFound : List String) (max : Nat) : List String :=
  let limit := max + 1
  let first := npmFound.take limit
  if first.length < limit then first ++ pnpmFound.take (limit - first.length) else first

/-- Path collection of the Node scanner: capped at `max` outright
(`Math.max(0, max - pkgJsonPaths.length)` is Nat subtraction). -/
def collectNode (npmFound pnpmFound : List String) (max : Nat) : List String :=
  let first := npmFound.take max
  first ++ pnpmFound.take (max - first.length)

/-- Shared per-manifest step: skip missing files, count parse failures,
skip script-less and (without `includePm`) package-manager entries. -/
def scanStep (contents : String → ManifestOutcome) (opts : PreflightOptions)
    (acc : List PreflightPackage × Nat) (pkgJsonPath : String) :
    List PreflightPackage × Nat :=
  match contents pkgJsonPath with
  | .missing => acc
  | .parseFail => (acc.1, acc.2 + 1)
  | .parsed name version scripts =>
    let picked := pickScripts scripts opts.scriptKeys
    if picked = [] then acc
    else
      let display := classifyPackageDisplayName name
      if !opts.includePm &&
          ((isPmPackageName name).isSome || strStartsWith display "<pm:") then acc
      else (acc.1 ++ [{ name := display, version := version, path := pkgJsonPath,
                        scripts := picked }], acc.2)

/-- `scanNodeModulesForScripts` of the Deno preflight module. -/
def scanDeno (npmFound pnpmFound : List String) (contents : String → ManifestOutcome)
    (opts : PreflightOptions) : ScanOutcomeRec :=
  let pkgJsonPaths := collectDeno npmFound pnpmFound opts.maxPackages
  let truncated := decide (pkgJsonPaths.length > opts.maxPackages)
  let toScan := pkgJsonPaths.take opts.maxPackages
  let acc := toScan.foldl (scanStep contents opts) ([], 0)
  { totalPackagesScanned := toScan.length,
    packagesWithScripts := acc.1.length,
    packages := acc.1, parseErrors := acc.2, truncated }

/-- The loop of the Node scanner, with its in-loop truncation check
(`packages.length >= max` breaks and sets the flag). -/
def scanNodeLoop (contents : String → ManifestOutcome) (opts : PreflightOptions) :
    List String → List PreflightPackage → Nat → List PreflightPackage × Nat × Bool
  | [], packages, parseErrors => (packages, parseErrors, false)
  | p :: rest, packages, parseErrors =>
    if packages.length ≥ opts.maxPackages then (packages, parseErrors, true)
    else
      let (packages', parseErrors') := scanStep contents opts (packages, parseErrors) p
      scanNodeLoop contents opts rest packages' parseErrors'

/-- `scanNodeModulesForScripts` of `src/preflight.ts`. -/
def scanNode (npmFound pnpmFound : List String) (contents : String → ManifestOutcome)
    (opts : PreflightOptions) : ScanOutcomeRec :=
  let pkgJsonPaths := collectNode npmFound pnpmFound opts.maxPackages
  let acc := scanNodeLoop contents opts pkgJsonPaths [] 0
  { totalPackagesScanned := pkgJsonPaths.length,
    packagesWithScripts := acc.1.length,
    packages := acc.1, parseErrors := acc.2.1, truncated := acc.2.2 }

/-! ### ensureIgnoreScripts (identical in all copies) -/

def installVerbs : List String := ["install", "i", "add", "ci"]

/-- `ensureIgnoreScripts`: inject `--ignore-scripts` into install-like
commands (second token a verb — `cmd[1] ?? ''` — or any token a verb) that
do not already carry it. -/
def ensureIgnoreScripts (cmd : List String) : List String × Bool :=
  if cmd = [] then (cmd, false)
  else if "--ignore-scripts" ∈ cmd then (cmd, false)
  else
    let installLike := cmd.getD 1 "" ∈ installVerbs ∨ ∃ t ∈ cmd, t ∈ installVerbs
    if installLike then (cmd ++ ["--ignore-scripts"], true) else (cmd, false)

/-! ### Aggregator (Deno summary.ts, summarizeJsonl)

The log file is abstracted to the per-line outcome of `trim` and
`JSON.parse`: blank lines and unparseable lines are `junk`, parseable ones
carry the parsed value (`JSON.parse` can produce `null` but never
`undefined` or functions).  Only the counting portion is embedded; the
top-N detail accumulation uses optional chaining throughout, touches no
claimed quantity, and cannot throw, so it is omitted. -/

inductive JLine where
  | junk
  | val (v : JsVal)

/-- JS property read `v.key`: throws on `null`/`undefined`, yields
`undefined` for absent keys and for primitive/array receivers. -/
def jsGet (v : JsVal) (key : String) : Except Unit JsVal :=
  match v with
  | .null => .error ()
  | .undef => .error ()
  | .obj fields => .ok ((objGet fields key).getD .undef)
  | _ => .ok .undef

structure SummaryCounts where
  fs_read : Nat
  fs_write : Nat
  proc : Nat
  dns : Nat
  net : Nat
deriving Repr, DecidableEq

def emptyCounts : SummaryCounts :=
  { fs_read := 0, fs_write := 0, proc := 0, dns := 0, net := 0 }

def isFsReadOp (op : String) : Bool :=
  strStartsWith op "fs.read" || strContains op ".createReadStream" ||
    strContains op "fs.promises.read"

def isFsWriteOp (op : String) : Bool :=
  strStartsWith op "fs.write" || strStartsWith op "fs.append" ||
    strContains op ".createWriteStream" || strContains op "fs.promises.write" ||
    strContains op "fs.promises.append"

/-- One record's effect on its package's counters (unknown `fs` ops count
as reads by explicit policy; other categories leave the counters alone). -/
def bumpCounts (c : SummaryCounts) (category op : String) : SummaryCounts :=
  if category = "fs" then
    if isFsReadOp op then { c with fs_read := c.fs_read + 1 }
    else if isFsWriteOp op then { c with fs_write := c.fs_write + 1 }
    else { c with fs_read := c.fs_read + 1 }
  else if category = "proc" then { c with proc := c.proc + 1 }
  else if category = "dns" then { c with dns := c.dns + 1 }
  else if category = "net" then { c with net := c.net + 1 }
  else c

/-- `byPackage[pkg] ??= emptyCounts()` followed by the increment. -/
def updateByPackage (byPackage : List (String × SummaryCounts))
    (pkg category op : String) : List (String × SummaryCounts) :=
  if byPackage.any (fun kv => kv.1 == pkg) then
    byPackage.map (fun kv => if kv.1 == pkg then (pkg, bumpCounts kv.2 category op) else kv)
  else byPackage ++ [(pkg, bumpCounts emptyCounts category op)]

structure AggSummary where
  totalEvents : Nat
  byPackage : List (String × SummaryCounts)
deriving Repr, DecidableEq

/-- One parsed record: `totalEvents++` happens first, then the unguarded
`evt.pkg` / `evt.op` / `evt.category` reads (which throw when the parsed
value is `null`). -/
def summarizeRecord (st : AggSummary) (v : JsVal) : Except Unit AggSummary := do
  let st1 : AggSummary := { st with totalEvents := st.totalEvents + 1 }
  let pv ← jsGet v "pkg"
  let pkg := match pv with | .str s => s | _ => "<unknown>"
  let ov ← jsGet v "op"
  let op := match ov with | .str s => s | _ => ""
  let cv ← jsGet v "category"
  let category := match cv with | .str s => s | _ => ""
  pure { st1 with byPackage := updateByPackage st1.byPackage pkg category op }

/-- One line's effect: blank/unparseable lines are skipped. -/
def summarizeLine (st : AggSummary) : JLine → Except Unit AggSummary
  | .junk => pure st
  | .val v => summarizeRecord st v

/-- `summarizeJsonl` over the line outcomes. -/
def summarizeJsonl (lines : List JLine) : Except Unit AggSummary :=
  lines.foldlM summarizeLine { totalEvents := 0, byPackage := [] }

/-- Total of one package's five counters. -/
def countsTotal (c : SummaryCounts) : Nat :=
  c.fs_read + c.fs_write + c.proc + c.dns + c.net

/-- Sum of all counters across `byPackage`. -/
def byPackageTotal (byPackage : List (String × SummaryCounts)) : Nat :=
  (byPackage.map (fun kv => countsTotal kv.2)).sum

/-- The value of the (non-throwing) JS property read `v.key`. -/
def jsProj (v : JsVal) (key : String) : JsVal :=
  match v with
  | .obj fields => (objGet fields key).getD .undef
  | _ => (.undef)

/-- The `pkg` string the aggregator derives from a parsed record. -/
def recPkg (v : JsVal) : String :=
  match jsProj v "pkg" with | .str s => s | _ => "<unknown>"

/-- The `op` string the aggregator derives from a parsed record. -/
def recOp (v : JsVal) : String :=
  match jsProj v "op" with | .str s => s | _ => ""

/-- The `category` string the aggregator derives from a parsed record. -/
def recCategory (v : JsVal) : String :=
  match jsProj v "category" with | .str s => s | _ => ""

/-- Does a record's category increment one of the four counters? -/
def countedCategory (c : String) : Bool :=
  c = "fs" || c = "proc" || c = "dns" || c = "net"

/-- Is this line outcome a parsed record? -/
def isValLine : JLine → Bool
  | .val _ => true
  | .junk => false

/-- Does this line outcome increment one of the four counters? -/
def countedLine : JLine → Bool
  | .val v => countedCategory (recCategory v)
  | .junk => false

/-! ### Root resolver (Deno roots.ts)

Manifest reading is I/O; the embedding takes the project layout as data:
the parse outcome of the top-level `package.json`, and the list of
successfully parsed manifests found under `node_modules` (absent or
unreadable `node_modules` is `none`).  `localeCompare` sorting is modelled
by the canonical order on strings.  The JS `rootsFor` map is redundant with
the BFS `seen` set — a pair is processed exactly when its root is added to
`rootsFor[pkg]` — so the model keeps only `seen` and reads the root set of
a package from it (the source sorts the set before joining, so insertion
order is immaterial). -/

structure TopManifest where
  dependencies : List String
  devDependencies : List String
  optionalDependencies : List String
  peerDependencies : List String

structure PkgManifest where
  name : String
  dependencies : List String
  optionalDependencies : List String
  peerDependencies : List String

structure ProjectLayout where
  topManifest : Option TopManifest
  nodeModules : Option (List PkgManifest)

/-- JS `Set.add`: keep first occurrences. -/
def setAdd (s : List String) (x : String) : List String :=
  if s.contains x then s else s ++ [x]

def setAddAll (s : List String) (xs : List String) : List String :=
  xs.foldl setAdd s

/-- Ascending sort (the source's `localeCompare` comparator). -/
def sortStr (l : List String) : List String :=
  l.insertionSort (· ≤ ·)

/-- `collectDirectRootsFromPackageJson`: the union of the four dependency
groups' keys (blank keys dropped), sorted. -/
def collectDirectRootsFromPackageJson (m : Option TopManifest) : List String :=
  match m with
  | none => []
  | some t =>
    let keys := (t.dependencies ++ t.devDependencies ++ t.optionalDependencies ++
      t.peerDependencies).filter (fun k => strTrim k ≠ "")
    sortStr (setAddAll [] keys)

abbrev DepGraph := List (String × List String)

/-- `graph.get(pkg)`; a missing node contributes no children. -/
def graphChildren (g : DepGraph) (name : String) : List String :=
  ((g.find? (fun e => e.1 == name)).map (·.2)).getD []

/-- `extractDependencyKeys`: union of `dependencies`,
`optionalDependencies`, `peerDependencies`. -/
def extractDependencyKeys (m : PkgManifest) : List String :=
  setAddAll [] (m.dependencies ++ m.optionalDependencies ++ m.peerDependencies)

/-- Merge one manifest's edges into the graph (Set union on an existing
node). -/
def graphInsert (g : DepGraph) (name : String) (deps : List String) : DepGraph :=
  if g.any (fun e => e.1 == name) then
    g.map (fun e => if e.1 == name then (name, setAddAll e.2 deps) else e)
  else g ++ [(name, setAddAll [] deps)]

/-- `buildGraphFromNodeModules` (its path listing is capped at 50 000). -/
def buildGraphFromNodeModules (manifests : List PkgManifest) : DepGraph :=
  (manifests.take 50000).foldl
    (fun g m => graphInsert g m.name (extractDependencyKeys m)) []

/-- A BFS work item / seen key: `(root, pkg)` (the JS key
`root + "\0" + pkg`). -/
abbrev RPair := String × String

/-- Every name that can appear as the `pkg` component of a reachable work
item. -/
def allNames (g : DepGraph) (roots : List String) : List String :=
  roots ++ g.map (·.1) ++ (g.map (·.2)).flatten

/-- Finite universe of work items, used only as a termination measure. -/
def bfsUniv (g : DepGraph) (roots : List String) : Finset RPair :=
  (roots.product (allNames g roots)).toFinset

/-- The BFS worklist loop of `computeRootByPackageFromNodeModules`.  The
final `else` branch (a work item outside `univ`) is unreachable for the
initial queue the source builds — see `bfsAux_subset_univ` — and skips the
item, which keeps the function total. -/
def bfsAux (g : DepGraph) (univ : Finset RPair) :
    List RPair → Finset RPair → Finset RPair
  | [], seen => seen
  | item :: rest, seen =>
    if item ∈ seen then bfsAux g univ rest seen
    else if huniv : item ∈ univ then
      bfsAux g univ (rest ++ (graphChildren g item.2).map (fun c => (item.1, c)))
        (insert item seen)
    else bfsAux g univ rest seen
termination_by queue seen => ((univ \ seen).card, queue.length)
decreasing_by
  · exact Prod.Lex.right _ (by simp)
  · apply Prod.Lex.left
    apply Finset.card_lt_card
    constructor
    · intro x hx
      simp only [Finset.mem_sdiff, Finset.mem_insert] at hx ⊢
      exact ⟨hx.1, fun h => hx.2 (Or.inr h)⟩
    · intro hsub
      have : item ∈ univ \ seen := Finset.mem_sdiff.mpr ⟨huniv, by assumption⟩
      have := hsub this
      simp at this
  · exact Prod.Lex.right _ (by simp)

/-- The processed pairs of the whole BFS, seeded with `(r, r)` for each
direct root. -/
def bfsSeen (g : DepGraph) (roots : List String) : Finset RPair :=
  bfsAux g (bfsUniv g roots) (roots.map (fun r => (r, r))) ∅

/-- Reachability in the dependency graph (the property the BFS computes). -/
inductive Reaches (g : DepGraph) : String → String → Prop
  | refl (a : String) : Reaches g a a
  | step {a b c : String} : Reaches g a b → c ∈ graphChildren g b → Reaches g a c

def lookupAssoc {α : Type} (l : List (String × α)) (k : String) : Option α :=
  (l.find? (fun kv => kv.1 == k)).map (·.2)

def joinBar : List String → String
  | [] => ""
  | [x] => x
  | x :: y :: xs => x ++ "|" ++ joinBar (y :: xs)

/-- The value the walk phase of `computeRootByPackageFromNodeModules`
assigns to one queried package (the body of its `map` over `packages`):
null for a `<`-prefixed name, otherwise the sorted `|`-join of the direct
roots whose BFS visit reached the package, or null when none did. -/
def rootWalkValue (directRoots : List String) (graph : DepGraph)
    (p : String) : Option String :=
  if strStartsWith p "<" then none
  else
    let rs := directRoots.filter (fun r => decide ((r, p) ∈ bfsSeen graph directRoots))
    if rs = [] then none else some (joinBar (sortStr rs))

/-- `computeRootByPackageFromNodeModules` from roots.ts: missing
`node_modules` maps every queried package to null; otherwise build the
graph, BFS from the direct roots, emit the sorted `|`-join (null for
`<`-prefixed queries and for unreached packages), then prefer direct roots
for themselves where the walk produced null. -/
def computeRootByPackageFromNodeModules (layout : ProjectLayout)
    (packages : List String) : List (String × Option String) :=
  let directRoots := collectDirectRootsFromPackageJson layout.topManifest
  match layout.nodeModules with
  | none => packages.map (fun p => (p, none))
  | some manifests =>
    let graph := buildGraphFromNodeModules manifests
    let base := packages.map (fun p => (p, rootWalkValue directRoots graph p))
    directRoots.foldl (fun out r =>
      if packages.contains r && (lookupAssoc out r == some none) then
        out.map (fun kv => if kv.1 == r then (r, some r) else kv)
      else out) base

/-! ### Concrete inputs used by counterexamples and witnesses -/

/-- A 600-character string, longer than every relevant truncation cap. -/
def longArg : String := String.mk (List.replicate 600 'a')

/-- A spawn call `spawn("sh", [longArg])`. -/
def cexSpawnArgs : List JsVal := [.str "sh", .arr [.str longArg]]

/-- Length of an optional array value — a total observation that separates
the two candidate `args.argv` shapes. -/
def optArrLen : Option JsVal → Nat
  | some (.arr xs) => xs.length
  | _ => 0

/-! ## Theorems -/

theorem length_mk (l : List Char) : (String.mk l).length = l.length := rfl

theorem truncateString_length_le (s : String) (n : Nat) (h : 0 < n) :
    (truncateString s n).length ≤ n := by
  unfold truncateString
  split
  next hle => exact hle
  next hgt =>
    rw [String.length_append, length_mk, List.length_take]
    have : ("…" : String).length = 1 := rfl
    omega

theorem boundedArr_iff (xs : List JsVal) :
    boundedArr xs = true ↔ ∀ x ∈ xs, boundedB x = true := by
  induction xs with
  | nil => simp [boundedArr]
  | cons x xs ih => simp [boundedArr, ih]

theorem boundedFields_iff (fs : List (String × JsVal)) :
    boundedFields fs = true ↔ ∀ kv ∈ fs, boundedB kv.2 = true := by
  induction fs with
  | nil => simp [boundedFields]
  | cons kv fs ih => simp [boundedFields, ih]

theorem noLeakArr_iff (xs : List JsVal) :
    noLeakArr xs = true ↔ ∀ x ∈ xs, noLeakB x = true := by
  induction xs with
  | nil => simp [noLeakArr]
  | cons x xs ih => simp [noLeakArr, ih]

theorem noLeakFields_iff (fs : List (String × JsVal)) :
    noLeakFields fs = true ↔ ∀ kv ∈ fs,
      (if looksSensitiveKey kv.1 then isRedacted kv.2 else noLeakB kv.2) = true := by
  induction fs with
  | nil => simp [noLeakFields]
  | cons kv fs ih => simp [noLeakFields, ih]

theorem boundedB_redactObject (d : Nat) : ∀ v : JsVal, boundedB (redactObject v d) = true := by
  induction d with
  | zero => intro v; rfl
  | succ d ih =>
    intro v
    cases v with
    | null => rfl
    | undef => rfl
    | bool b => rfl
    | num n => rfl
    | func => rfl
    | str s =>
      simp only [redactObject, boundedB, decide_eq_true_eq]
      exact truncateString_length_le s 500 (by omega)
    | arr elems =>
      simp only [redactObject, boundedB, Bool.and_eq_true, decide_eq_true_eq]
      refine ⟨?_, (boundedArr_iff _).mpr ?_⟩
      · calc ((elems.take 20).map _).length = (elems.take 20).length := by
              rw [List.length_map]
          _ ≤ 20 := by rw [List.length_take]; omega
      · intro x hx
        rcases List.mem_map.mp hx with ⟨y, _, rfl⟩
        exact ih y
    | obj fields =>
      simp only [redactObject, boundedB, Bool.and_eq_true, decide_eq_true_eq]
      refine ⟨?_, (boundedFields_iff _).mpr ?_⟩
      · calc ((fields.take 40).map _).length = (fields.take 40).length := by
              rw [List.length_map]
          _ ≤ 40 := by rw [List.length_take]; omega
      · intro kv hkv
        rcases List.mem_map.mp hkv with ⟨y, _, rfl⟩
        by_cases hs : looksSensitiveKey y.1 = true
        · simp [hs]
          rfl
        · simp only [Bool.not_eq_true] at hs
          simp [hs]
          exact ih y.2

theorem noLeakB_redactObject (d : Nat) : ∀ v : JsVal, noLeakB (redactObject v d) = true := by
  induction d with
  | zero => intro v; rfl
  | succ d ih =>
    intro v
    cases v with
    | null => rfl
    | undef => rfl
    | bool b => rfl
    | num n => rfl
    | func => rfl
    | str s => rfl
    | arr elems =>
      simp only [redactObject, noLeakB]
      refine (noLeakArr_iff _).mpr ?_
      intro x hx
      rcases List.mem_map.mp hx with ⟨y, _, rfl⟩
      exact ih y
    | obj fields =>
      simp only [redactObject, noLeakB]
      refine (noLeakFields_iff _).mpr ?_
      intro kv hkv
      rcases List.mem_map.mp hkv with ⟨y, _, rfl⟩
      by_cases hs : looksSensitiveKey y.1 = true
      · simp [hs, isRedacted]
      · simp only [Bool.not_eq_true] at hs
        simp [hs]
        exact ih y.2

/-- C2: redaction contract of `redactObject`.  For every value and
recursion budget: (1) every string value in the output has at most 500
characters, arrays keep at most 20 elements and objects at most 40 keys;
(2) nowhere in the output is a sensitive key paired with anything but the
literal `"<redacted>"`; (3) positively, a sensitive key among the first 40
keys of an object processed with positive remaining depth is mapped to
exactly `"<redacted>"` (the default entry depth is 3). -/
theorem claim_C2 :
    (∀ (v : JsVal) (d : Nat), boundedB (redactObject v d) = true)
  ∧ (∀ (v : JsVal) (d : Nat), noLeakB (redactObject v d) = true)
  ∧ (∀ (fields : List (String × JsVal)) (d : Nat) (k : String) (w : JsVal),
      (k, w) ∈ fields.take 40 → looksSensitiveKey k = true →
      ∃ out, redactObject (JsVal.obj fields) (d + 1) = JsVal.obj out ∧
        (k, JsVal.str "<redacted>") ∈ out) := by
  refine ⟨fun v d => boundedB_redactObject d v, fun v d => noLeakB_redactObject d v, ?_⟩
  intro fields d k w hmem hsens
  refine ⟨_, rfl, ?_⟩
  refine List.mem_map.mpr ⟨(k, w), hmem, ?_⟩
  simp [hsens]

/-- Witness for C2 at a concrete object with a sensitive key. -/
theorem claim_C2_witness :
    (("password", JsVal.str "hunter2") ∈
        ([("password", JsVal.str "hunter2")] : List (String × JsVal)).take 40)
  ∧ looksSensitiveKey "password" = true
  ∧ (∃ out, redactObject (JsVal.obj [("password", JsVal.str "hunter2")]) (2 + 1) =
        JsVal.obj out ∧ (("password", JsVal.str "<redacted>")) ∈ out) := by
  refine ⟨by simp, by decide, ?_⟩
  exact claim_C2.2.2 [("password", JsVal.str "hunter2")] 2 "password" (JsVal.str "hunter2")
    (by simp) (by decide)

theorem ensure_marker (cmd : List String) (h0 : cmd ≠ []) (h : "--ignore-scripts" ∈ cmd) :
    ensureIgnoreScripts cmd = (cmd, false) := by
  unfold ensureIgnoreScripts
  rw [if_neg h0, if_pos h]

theorem ensure_like (cmd : List String) (h0 : cmd ≠ []) (h1 : "--ignore-scripts" ∉ cmd)
    (h2 : cmd.getD 1 "" ∈ installVerbs ∨ ∃ t ∈ cmd, t ∈ installVerbs) :
    ensureIgnoreScripts cmd = (cmd ++ ["--ignore-scripts"], true) := by
  unfold ensureIgnoreScripts
  rw [if_neg h0, if_neg h1]
  exact if_pos h2

theorem ensure_not_like (cmd : List String) (h0 : cmd ≠ []) (h1 : "--ignore-scripts" ∉ cmd)
    (h2 : ¬(cmd.getD 1 "" ∈ installVerbs ∨ ∃ t ∈ cmd, t ∈ installVerbs)) :
    ensureIgnoreScripts cmd = (cmd, false) := by
  unfold ensureIgnoreScripts
  rw [if_neg h0, if_neg h1]
  exact if_neg h2

/-- C8: algebra of `ensureIgnoreScripts`: it is idempotent (the second
application never changes the command and reports no injection); commands
holding none of the install verbs pass through unchanged; install-like
commands without `--ignore-scripts` get exactly that token appended at the
end. -/
theorem claim_C8 :
    (∀ cmd : List String,
        ensureIgnoreScripts (ensureIgnoreScripts cmd).1 = ((ensureIgnoreScripts cmd).1, false))
  ∧ (∀ cmd : List String, (∀ t ∈ cmd, t ∉ installVerbs) →
        ensureIgnoreScripts cmd = (cmd, false))
  ∧ (∀ cmd : List String, (∃ t ∈ cmd, t ∈ installVerbs) → "--ignore-scripts" ∉ cmd →
        ensureIgnoreScripts cmd = (cmd ++ ["--ignore-scripts"], true)) := by
  have hnoverb : ∀ cmd : List String, (∀ t ∈ cmd, t ∉ installVerbs) →
      ensureIgnoreScripts cmd = (cmd, false) := by
    intro cmd h
    rcases Decidable.em (cmd = []) with hnil | hnil
    · subst hnil; rfl
    · rcases Decidable.em ("--ignore-scripts" ∈ cmd) with hc | hc
      · exact ensure_marker cmd hnil hc
      · refine ensure_not_like cmd hnil hc ?_
        rintro (h1 | ⟨t, ht, hverb⟩)
        · rcases cmd with _ | ⟨a, _ | ⟨b, t⟩⟩
          · exact hnil rfl
          · rw [show ([a] : List String).getD 1 "" = "" from rfl] at h1
            exact absurd h1 (by decide)
          · rw [show (a :: b :: t).getD 1 "" = b from rfl] at h1
            exact h b (by simp) h1
        · exact h t ht hverb
  refine ⟨?_, hnoverb, ?_⟩
  · intro cmd
    rcases Decidable.em (cmd = []) with hnil | hnil
    · subst hnil; rfl
    · rcases Decidable.em ("--ignore-scripts" ∈ cmd) with hc | hc
      · rw [ensure_marker cmd hnil hc]
        exact ensure_marker cmd hnil hc
      · rcases Decidable.em (cmd.getD 1 "" ∈ installVerbs ∨ ∃ t ∈ cmd, t ∈ installVerbs)
          with hlike | hlike
        · rw [ensure_like cmd hnil hc hlike]
          exact ensure_marker _ (by simp) (by simp)
        · rw [ensure_not_like cmd hnil hc hlike]
          exact ensure_not_like cmd hnil hc hlike
  · intro cmd hex hno
    have hnil : cmd ≠ [] := by
      rcases hex with ⟨t, ht, _⟩
      rintro rfl
      exact absurd ht (by simp)
    exact ensure_like cmd hnil hno (Or.inr hex)

/-- Witness for C8 on `npm install` with and without install verbs. -/
theorem claim_C8_witness :
    ((∀ t ∈ (["npm", "run", "build"] : List String), t ∉ installVerbs) ∧
      ensureIgnoreScripts ["npm", "run", "build"] = (["npm", "run", "build"], false))
  ∧ ((∃ t ∈ (["npm", "install"] : List String), t ∈ installVerbs) ∧
      "--ignore-scripts" ∉ (["npm", "install"] : List String) ∧
      ensureIgnoreScripts ["npm", "install"] =
        (["npm", "install"] ++ ["--ignore-scripts"], true)) := by
  refine ⟨⟨by decide, ?_⟩, ⟨by decide, by decide, ?_⟩⟩
  · exact claim_C8.2.1 ["npm", "run", "build"] (by decide)
  · exact claim_C8.2.2 ["npm", "install"] (by decide) (by decide)

/-- C4: sink filtering.  The generated preload's `shouldEmitEvent`
coincides, for every configuration and package identity, with the claimed
policy (drop exactly `<malwatch>` and, when `includePm` is false, `<pm:`
prefixes); but the `src/preload.ts` variant additionally drops `<unknown>`
under the default configuration, although the claimed policy writes it. -/
theorem claim_C4_filter_divergence :
    (∀ (cfg : FilterCfg) (pkg : String), shouldEmitEventCjs cfg pkg = claimedEmit cfg pkg)
  ∧ shouldEmitEventTs defaultCfg "<unknown>" = false
  ∧ claimedEmit defaultCfg "<unknown>" = true := by
  refine ⟨?_, by decide, by decide⟩
  intro cfg pkg
  unfold shouldEmitEventCjs claimedEmit shouldEmitForPackage
  by_cases hf : cfg.filter = "package-only" <;>
    by_cases hm : pkg = "<malwatch>" <;>
    by_cases hi : cfg.includePm <;>
    by_cases hp : strStartsWith pkg "<pm:" <;>
    simp [hf, hm, hi, hp]

theorem inferFromCandidates_filterMap (lines : List String) :
    inferFromCandidates (lines.filterMap extractFilePathFromStackLine) =
      ((lines.filterMap frameIdentity).head?).map classifyPackageDisplayName := by
  induction lines with
  | nil => rfl
  | cons line rest ih =>
    rw [List.filterMap_cons, List.filterMap_cons]
    cases hext : extractFilePathFromStackLine line with
    | none => simpa [frameIdentity, hext] using ih
    | some c =>
      cases hpkg : packageNameFromFilePath c with
      | none =>
        have hframe : frameIdentity line = none := by
          simp [frameIdentity, hext, hpkg]
        have hstep : inferFromCandidates (c :: List.filterMap extractFilePathFromStackLine rest) =
            inferFromCandidates (List.filterMap extractFilePathFromStackLine rest) := by
          simp [inferFromCandidates, hpkg]
        rw [hframe, hstep]
        exact ih
      | some n =>
        by_cases hmw : n = "npm-malwatch"
        · have hframe : frameIdentity line = none := by
            simp [frameIdentity, hext, hpkg, hmw]
          have hstep : inferFromCandidates (c :: List.filterMap extractFilePathFromStackLine rest) =
              inferFromCandidates (List.filterMap extractFilePathFromStackLine rest) := by
            simp [inferFromCandidates, hpkg, hmw]
          rw [hframe, hstep]
          exact ih
        · have hframe : frameIdentity line = some n := by
            simp [frameIdentity, hext, hpkg, hmw]
          have hstep : inferFromCandidates (c :: List.filterMap extractFilePathFromStackLine rest) =
              some (classifyPackageDisplayName n) := by
            simp [inferFromCandidates, hpkg, hmw]
          rw [hframe, hstep]
          rfl

/-- C5 counterexample: on a stack with no `node_modules` frame but with
`npm_package_name=lodash` in the environment, `inferPackageFromStack`
returns `"lodash"`, not `"<unknown>"` as the claim requires. -/
theorem claim_C5_cex :
    inferPackageFromStack { npmPackageName := "lodash", initCwd := "", cwd := "/proj" }
      (some "Error: stack") = "lodash"
  ∧ stackToCandidateFilePaths (some "Error: stack") = []
  ∧ inferPackageFromStackClaimed (some "Error: stack") = "<unknown>"
  ∧ ("lodash" : String) ≠ "<unknown>" := by
  exact ⟨by decide, by decide, by decide, by decide⟩

/-- C5 (amended): `inferPackageFromStack` returns the classified identity
of the first frame whose path yields a package name (runtime-internal paths
rejected, this tool's own frames skipped, package-manager names collapsed
to their sentinels); when no frame matches it falls back to the classified
`npm_package_name` when non-empty, then to the basename of
`INIT_CWD || cwd` when non-empty, and only then returns `<unknown>`. -/
theorem claim_C5_amended (env : AttrEnv) (stack : Option String) :
    inferPackageFromStack env stack =
      match ((match stack with
              | none => []
              | some s => strSplitOn '\n' s).filterMap frameIdentity).head? with
      | some n => classifyPackageDisplayName n
      | none =>
        if env.npmPackageName ≠ "" then classifyPackageDisplayName env.npmPackageName
        else if pathBasename (if env.initCwd ≠ "" then env.initCwd else env.cwd) ≠ "" then
          pathBasename (if env.initCwd ≠ "" then env.initCwd else env.cwd)
        else "<unknown>" := by
  unfold inferPackageFromStack
  cases stack with
  | none => rfl
  | some s =>
    rw [show stackToCandidateFilePaths (some s) =
          (strSplitOn '\n' s).filterMap extractFilePathFromStackLine from rfl]
    rw [inferFromCandidates_filterMap]
    cases ((strSplitOn '\n' s).filterMap frameIdentity).head? with
    | none => rfl
    | some n => rfl

/-- C6 counterexample: for `spawn("sh", [600 chars])` the emitted
`args.argv` is the redacted full argument list (the spread of `baseArgs`
overrides the spawn-vector summary), not the claimed 200-character/20-element
truncation of the spawn vector. -/
theorem claim_C6_cex :
    objGet (spawnMakeArgs cexSpawnArgs) "argv" = some (redactObject (.arr cexSpawnArgs) 3)
  ∧ objGet (spawnMakeArgs cexSpawnArgs) "argv" ≠ claimedSpawnArgv cexSpawnArgs := by
  constructor
  · rfl
  · intro h
    have h2 := congrArg optArrLen h
    rw [show optArrLen (objGet (spawnMakeArgs cexSpawnArgs) "argv") = 2 from rfl,
        show optArrLen (claimedSpawnArgv cexSpawnArgs) = 1 from rfl] at h2
    exact absurd h2 (by decide)

/-- C6 (amended): for spawn-style calls, `args.file` is the first argument
truncated to 300 characters (when it is a string), and `args.argv` is the
full argument list redacted by `redactObject` at depth 3 — the inline
spawn-vector truncation is overwritten by the later `...baseArgs(args)`
spread. -/
theorem claim_C6_amended (args : List JsVal) :
    objGet (spawnMakeArgs args) "file" =
      some (match args.getD 0 .undef with
            | .str s => JsVal.str (truncateString s 300)
            | _ => JsVal.undef)
  ∧ objGet (spawnMakeArgs args) "argv" = some (redactObject (.arr args) 3) := by
  exact ⟨rfl, rfl⟩

/-- With the log descriptor already open, `writeLine` cannot fail:
`ensureLogFd` returns the descriptor at once and the `writeSync` call sits
inside its own try/catch. -/
theorem writeLine_some (cfg : SinkCfg) (st : SinkState) (evt : MwEvent) (fd : Nat)
    (hfd : st.logFd = some fd) :
    writeLine cfg st evt =
      .ok (if cfg.writeOk then { st with lines := st.lines ++ [evt] } else st) := by
  rcases st with ⟨lf, rows⟩
  have hfd' : lf = some fd := hfd
  subst hfd'
  rfl

/-- With the log descriptor open, `logEvent` of `src/preload.ts` cannot
fail: it appends the event exactly when the filter passes and the write
succeeds, and it never touches the descriptor. -/
theorem logEventTs_ok (fcfg : FilterCfg) (cfg : SinkCfg) (st : SinkState) (evt : MwEvent)
    (h : st.logFd.isSome = true) :
    logEventTs fcfg cfg st evt = .ok { st with lines := st.lines ++
      (if shouldEmitEventTs fcfg evt.pkg = true ∧ cfg.writeOk = true then [evt] else []) } := by
  unfold logEventTs logEventWith
  obtain ⟨fd, hfd⟩ := Option.isSome_iff_exists.mp h
  by_cases he : shouldEmitEventTs fcfg evt.pkg = true
  · rw [if_pos he, writeLine_some cfg st evt fd hfd]
    by_cases hw : cfg.writeOk = true
    · rw [if_pos hw, if_pos ⟨he, hw⟩]
    · rw [if_neg hw, if_neg (fun hc => hw hc.2), List.append_nil]
  · rw [if_neg he, if_neg (fun hc => he hc.1), List.append_nil]

/-- C1: wrapper transparency.  The preload's top-level `try` either aborts
before any wrapper exists or leaves the log descriptor open; and in every
state with the descriptor open — which each wrapped call preserves — a
wrapped synchronous call returns exactly the original's value, re-throws
exactly the original's exception, appends the matching `result=ok` /
`result=error` record exactly when the filter passes and the write
succeeds, and a sink write failure never changes the outcome nor raises
into the observed caller. -/
theorem claim_C1 (cfg : SinkCfg) (fcfg : FilterCfg) (logFile filt hard : String)
    (st₀ : SinkState) (hinstall : preloadInstall cfg logFile filt hard = some st₀) :
    st₀.logFd.isSome = true ∧
    (∀ st : SinkState, st.logFd.isSome = true →
      ∀ (pkg op category : String) (args : List (String × JsVal))
        (original : Except MwError JsVal),
        (wrapSyncRun fcfg cfg st pkg op category args original).1 =
          (match original with
           | .ok v => WrapOutcome.ret v
           | .error e => WrapOutcome.thrown e) ∧
        ((wrapSyncRun fcfg cfg st pkg op category args original).2).logFd.isSome = true ∧
        ((wrapSyncRun fcfg cfg st pkg op category args original).2).lines =
          st.lines ++
            (if shouldEmitEventTs fcfg pkg = true ∧ cfg.writeOk = true then
              [match original with
               | .ok _ => okEvent pkg op category args
               | .error e => errEvent pkg op category args e]
             else [])) := by
  rcases cfg with ⟨openOk, writeOk⟩
  constructor
  · cases openOk with
    | false => exact Option.noConfusion hinstall
    | true =>
      cases writeOk with
      | false =>
        have h : some ({ logFd := some 0, lines := [] } : SinkState) = some st₀ := hinstall
        injection h with h2
        rw [← h2]
        rfl
      | true =>
        have h : some ({ logFd := some 0,
                         lines := [startupEvent logFile filt hard] } : SinkState) =
            some st₀ := hinstall
        injection h with h2
        rw [← h2]
        rfl
  · intro st hst pkg op category args original
    cases original with
    | ok v =>
      have heq := logEventTs_ok fcfg ⟨openOk, writeOk⟩ st (okEvent pkg op category args) hst
      have hrun : wrapSyncRun fcfg ⟨openOk, writeOk⟩ st pkg op category args (.ok v) =
          (.ret v, { st with lines := st.lines ++
            (if shouldEmitEventTs fcfg (okEvent pkg op category args).pkg = true ∧
                writeOk = true then [okEvent pkg op category args] else []) }) := by
        unfold wrapSyncRun
        rw [heq]
      rw [hrun]
      exact ⟨rfl, hst, rfl⟩
    | error e =>
      have heq := logEventTs_ok fcfg ⟨openOk, writeOk⟩ st (errEvent pkg op category args e) hst
      have hrun : wrapSyncRun fcfg ⟨openOk, writeOk⟩ st pkg op category args (.error e) =
          (.thrown e, { st with lines := st.lines ++
            (if shouldEmitEventTs fcfg (errEvent pkg op category args e).pkg = true ∧
                writeOk = true then [errEvent pkg op category args e] else []) }) := by
        have hstep : wrapSyncRun fcfg ⟨openOk, writeOk⟩ st pkg op category args (.error e) =
            (match logEventTs fcfg ⟨openOk, writeOk⟩ st (errEvent pkg op category args e) with
             | .ok st' => (WrapOutcome.thrown e, st')
             | .error _ => (WrapOutcome.instrFailure, st)) := rfl
        rw [hstep, heq]
      rw [hrun]
      exact ⟨rfl, hst, rfl⟩

/-- C1 witness: with a writable sink the startup write succeeds, and a
wrapped call in the resulting state passes its return value straight
through. -/
theorem claim_C1_witness :
    preloadInstall ⟨true, true⟩ "/tmp/log" "package-only" "detect" =
      some { logFd := some 0, lines := [startupEvent "/tmp/log" "package-only" "detect"] } ∧
    (wrapSyncRun defaultCfg ⟨true, true⟩
        { logFd := some 0, lines := [startupEvent "/tmp/log" "package-only" "detect"] }
        "lodash" "fs.writeFileSync" "fs" [("path", JsVal.str "/x")]
        (.ok (JsVal.str "ret"))).1 = WrapOutcome.ret (JsVal.str "ret") := by
  have h := claim_C1 ⟨true, true⟩ defaultCfg "/tmp/log" "package-only" "detect"
    { logFd := some 0, lines := [startupEvent "/tmp/log" "package-only" "detect"] } rfl
  refine ⟨rfl, ?_⟩
  exact (h.2 { logFd := some 0, lines := [startupEvent "/tmp/log" "package-only" "detect"] }
    rfl "lodash" "fs.writeFileSync" "fs" [("path", JsVal.str "/x")]
    (.ok (JsVal.str "ret"))).1

/-- C3 (code-path exhibit): under the default environment
(`filter=package-only`, `includePm=false`, `hardening=detect`), the
`src/preload.ts` tamper detector writes nothing even when
`fs.writeFileSync` lost its wrapper marker (its `<unknown>` record is
filtered out), while the generated-preload detector writes exactly the
claimed tamper record; with all four markers intact neither writes
anything. -/
theorem claim_C3_tamper_divergence :
    detectTamperingTs defaultCfg { openOk := true, writeOk := true }
        { logFd := some 0, lines := [] }
        { writeFileSyncWrapped := false, spawnWrapped := true,
          httpRequestWrapped := true, dnsLookupWrapped := true } =
      .ok { logFd := some 0, lines := [] }
  ∧ detectTamperingCjs defaultCfg { openOk := true, writeOk := true }
        { logFd := some 0, lines := [] } "<unknown>"
        { writeFileSyncWrapped := false, spawnWrapped := true,
          httpRequestWrapped := true, dnsLookupWrapped := true } =
      .ok { logFd := some 0, lines := [tamperEvent "<unknown>" "fs.writeFileSync"] }
  ∧ detectTamperingTs defaultCfg { openOk := true, writeOk := true }
        { logFd := some 0, lines := [] }
        { writeFileSyncWrapped := true, spawnWrapped := true,
          httpRequestWrapped := true, dnsLookupWrapped := true } =
      .ok { logFd := some 0, lines := [] }
  ∧ detectTamperingCjs defaultCfg { openOk := true, writeOk := true }
        { logFd := some 0, lines := [] } "<unknown>"
        { writeFileSyncWrapped := true, spawnWrapped := true,
          httpRequestWrapped := true, dnsLookupWrapped := true } =
      .ok { logFd := some 0, lines := [] } := by
  exact ⟨rfl, rfl, rfl, rfl⟩

theorem collectDeno_eq (nf pf : List String) (m : Nat) :
    collectDeno nf pf m = (nf ++ pf).take (m + 1) := by
  unfold collectDeno
  rw [List.take_append_eq_append_take]
  by_cases h : (nf.take (m + 1)).length < m + 1
  · rw [if_pos h]
    rw [List.length_take] at h ⊢
    have h2 : min (m + 1) nf.length = nf.length := by omega
    rw [h2]
  · rw [if_neg h]
    rw [List.length_take] at h
    have h2 : m + 1 - nf.length = 0 := by omega
    rw [h2]
    simp

theorem collectNode_eq (nf pf : List String) (m : Nat) :
    collectNode nf pf m = (nf ++ pf).take m := by
  show nf.take m ++ pf.take (m - (nf.take m).length) = (nf ++ pf).take m
  rw [List.take_append_eq_append_take, List.length_take]
  have h2 : m - min m nf.length = m - nf.length := by omega
  rw [h2]

/-- C7: scanner truncation boundary.  The Deno scanner (which collects up
to `max+1` paths) reports `truncated=true` and exactly `maxPackages`
scanned whenever the listing finds strictly more than `maxPackages`
manifests, and `truncated=false` when it finds at most that many; the Node
scanner (`src/preflight.ts`) caps its listing at `max` outright, so on a
layout with two manifests and `maxPackages=1` it reports `truncated=false`
— the overflow is invisible to it — against the claim. -/
theorem claim_C7_truncation_divergence :
    (∀ (nf pf : List String) (contents : String → ManifestOutcome) (opts : PreflightOptions),
        opts.maxPackages < nf.length + pf.length →
        (scanDeno nf pf contents opts).truncated = true ∧
        (scanDeno nf pf contents opts).totalPackagesScanned = opts.maxPackages)
  ∧ (∀ (nf pf : List String) (contents : String → ManifestOutcome) (opts : PreflightOptions),
        nf.length + pf.length ≤ opts.maxPackages →
        (scanDeno nf pf contents opts).truncated = false)
  ∧ ((scanNode ["nm/a/package.json", "nm/b/package.json"] []
        (fun _ => .parsed "x" "1.0.0" [("postinstall", "node i.js")])
        { includePm := false, maxPackages := 1,
          scriptKeys := ["preinstall", "install", "postinstall", "prepare"] }).truncated = false
    ∧ (scanNode ["nm/a/package.json", "nm/b/package.json"] []
        (fun _ => .parsed "x" "1.0.0" [("postinstall", "node i.js")])
        { includePm := false, maxPackages := 1,
          scriptKeys := ["preinstall", "install", "postinstall", "prepare"] }).totalPackagesScanned
        = 1) := by
  refine ⟨?_, ?_, by decide, by decide⟩
  · intro nf pf contents opts h
    unfold scanDeno
    rw [collectDeno_eq]
    refine ⟨?_, ?_⟩
    · show decide (((nf ++ pf).take (opts.maxPackages + 1)).length > opts.maxPackages) = true
      simp only [decide_eq_true_eq, gt_iff_lt]
      rw [List.length_take, List.length_append]
      omega
    · show (((nf ++ pf).take (opts.maxPackages + 1)).take opts.maxPackages).length
        = opts.maxPackages
      rw [List.take_take, List.length_take, List.length_append]
      omega
  · intro nf pf contents opts h
    unfold scanDeno
    rw [collectDeno_eq]
    show decide (((nf ++ pf).take (opts.maxPackages + 1)).length > opts.maxPackages) = false
    simp only [decide_eq_false_iff_not, gt_iff_lt, not_lt]
    rw [List.length_take, List.length_append]
    omega

/-- Witness for C7 on a two-manifest layout scanned with `maxPackages=1`. -/
theorem claim_C7_witness :
    ((1 : Nat) < (["p1", "p2"] : List String).length + ([] : List String).length)
  ∧ ((scanDeno ["p1", "p2"] [] (fun _ => .parseFail)
        { includePm := false, maxPackages := 1, scriptKeys := [] }).truncated = true
    ∧ (scanDeno ["p1", "p2"] [] (fun _ => .parseFail)
        { includePm := false, maxPackages := 1, scriptKeys := [] }).totalPackagesScanned = 1) := by
  exact ⟨by decide, claim_C7_truncation_divergence.1 ["p1", "p2"] [] (fun _ => .parseFail)
    { includePm := false, maxPackages := 1, scriptKeys := [] } (by decide)⟩

theorem summarizeRecord_ok (st : AggSummary) (v : JsVal)
    (h0 : v ≠ JsVal.null) (h1 : v ≠ JsVal.undef) :
    summarizeRecord st v =
      .ok { totalEvents := st.totalEvents + 1,
            byPackage := updateByPackage st.byPackage (recPkg v) (recCategory v) (recOp v) } := by
  cases v with
  | null => exact absurd rfl h0
  | undef => exact absurd rfl h1
  | bool b => rfl
  | num n => rfl
  | str s => rfl
  | arr xs => rfl
  | obj fields => rfl
  | func => rfl

theorem countsTotal_bump (c : SummaryCounts) (category op : String) :
    countsTotal (bumpCounts c category op) =
      countsTotal c + (if countedCategory category = true then 1 else 0) := by
  unfold bumpCounts countedCategory countsTotal
  split_ifs <;> simp_all <;> omega

theorem map_update_id {α : Type} (rest : List (String × α)) (pkg : String)
    (f : String × α → String × α) (h : ∀ e ∈ rest, e.1 ≠ pkg) :
    rest.map (fun e => if e.1 == pkg then f e else e) = rest := by
  induction rest with
  | nil => rfl
  | cons e t ih =>
    have he : (e.1 == pkg) = false := by
      simpa using h e (by simp)
    simp only [List.map_cons, he, Bool.false_eq_true, if_false]
    rw [ih (fun x hx => h x (by simp [hx]))]

theorem byPackageTotal_cons (kv : String × SummaryCounts) (l : List (String × SummaryCounts)) :
    byPackageTotal (kv :: l) = countsTotal kv.2 + byPackageTotal l := by
  simp [byPackageTotal]

theorem updateByPackage_cons_ne (kv : String × SummaryCounts)
    (rest : List (String × SummaryCounts)) (pkg cat op : String) (h : kv.1 ≠ pkg) :
    updateByPackage (kv :: rest) pkg cat op = kv :: updateByPackage rest pkg cat op := by
  unfold updateByPackage
  have hbeq : (kv.1 == pkg) = false := by simpa using h
  simp only [List.any_cons, hbeq, Bool.false_or]
  by_cases h2 : rest.any (fun e => e.1 == pkg) = true
  · rw [if_pos h2, if_pos h2, List.map_cons]
    congr 1
    simp [hbeq]
  · rw [if_neg h2, if_neg h2, List.cons_append]

theorem updateByPackage_total (byP : List (String × SummaryCounts)) (pkg cat op : String)
    (hu : List.Pairwise (fun a b => a.1 ≠ b.1) byP) :
    byPackageTotal (updateByPackage byP pkg cat op) =
      byPackageTotal byP + (if countedCategory cat = true then 1 else 0) := by
  induction byP with
  | nil =>
    show byPackageTotal [(pkg, bumpCounts emptyCounts cat op)] =
      byPackageTotal [] + (if countedCategory cat = true then 1 else 0)
    rw [byPackageTotal_cons]
    show countsTotal (bumpCounts emptyCounts cat op) + byPackageTotal [] =
      byPackageTotal [] + (if countedCategory cat = true then 1 else 0)
    rw [countsTotal_bump]
    show countsTotal emptyCounts + _ + byPackageTotal [] = _
    rw [show countsTotal emptyCounts = 0 from rfl, show byPackageTotal [] = 0 from rfl]
    omega
  | cons kv rest ih =>
    rcases List.pairwise_cons.mp hu with ⟨hne, hu2⟩
    by_cases h : kv.1 = pkg
    · have hbeq : (kv.1 == pkg) = true := by simpa using h
      have hany : (kv :: rest).any (fun e => e.1 == pkg) = true := by
        simp [List.any_cons, hbeq]
      unfold updateByPackage
      rw [if_pos hany]
      simp only [List.map_cons, hbeq, if_true]
      rw [map_update_id rest pkg _ (fun e he => by rw [← h]; exact (hne e he).symm)]
      rw [byPackageTotal_cons, byPackageTotal_cons]
      show countsTotal (bumpCounts kv.2 cat op) + _ = _
      rw [countsTotal_bump]
      omega
    · rw [updateByPackage_cons_ne kv rest pkg cat op h]
      rw [byPackageTotal_cons, byPackageTotal_cons, ih hu2]
      omega

theorem updateByPackage_mem_self (byP : List (String × SummaryCounts)) (pkg cat op : String) :
    pkg ∈ (updateByPackage byP pkg cat op).map Prod.fst := by
  unfold updateByPackage
  by_cases h : byP.any (fun e => e.1 == pkg) = true
  · rw [if_pos h]
    rcases List.any_eq_true.mp h with ⟨e, he, heq⟩
    refine List.mem_map.mpr ⟨(pkg, bumpCounts e.2 cat op), List.mem_map.mpr ⟨e, he, ?_⟩, rfl⟩
    simp [heq]
  · rw [if_neg h]
    simp

theorem updateByPackage_mem_mono (byP : List (String × SummaryCounts)) (pkg cat op q : String)
    (hq : q ∈ byP.map Prod.fst) : q ∈ (updateByPackage byP pkg cat op).map Prod.fst := by
  unfold updateByPackage
  split
  · rcases List.mem_map.mp hq with ⟨e, he, rfl⟩
    refine List.mem_map.mpr ⟨if e.1 == pkg then (pkg, bumpCounts e.2 cat op) else e,
      List.mem_map.mpr ⟨e, he, rfl⟩, ?_⟩
    by_cases hb : (e.1 == pkg) = true
    · simp only [hb, if_true]
      exact (eq_of_beq hb).symm
    · simp only [hb, Bool.false_eq_true, if_false]
  · rw [List.map_append]
    exact List.mem_append_left _ hq

theorem updateByPackage_uniq (byP : List (String × SummaryCounts)) (pkg cat op : String)
    (hu : List.Pairwise (fun a b => a.1 ≠ b.1) byP) :
    List.Pairwise (fun a b => a.1 ≠ b.1) (updateByPackage byP pkg cat op) := by
  unfold updateByPackage
  split
  · have hfst : ∀ e : String × SummaryCounts,
        ((if e.1 == pkg then (pkg, bumpCounts e.2 cat op) else e)).1 = e.1 := by
      intro e
      by_cases hb : (e.1 == pkg) = true
      · simp only [hb, if_true]
        exact (eq_of_beq hb).symm
      · simp only [hb, Bool.false_eq_true, if_false]
    refine List.Pairwise.map _ ?_ hu
    intro a b hab
    rw [hfst a, hfst b]
    exact hab
  · next hany =>
    rw [List.pairwise_append]
    refine ⟨hu, by simp, ?_⟩
    intro a ha b hb
    rcases List.mem_singleton.mp hb with rfl
    have hf : byP.any (fun e => e.1 == pkg) = false := by
      rw [← Bool.not_eq_true]
      exact hany
    have := List.any_eq_false.mp hf a ha
    simpa using this

theorem countP_lt_of_witness {α : Type} (l : List α) (p q : α → Bool)
    (hpq : ∀ x ∈ l, q x = true → p x = true)
    (x : α) (hx : x ∈ l) (hpx : p x = true) (hqx : q x = false) :
    l.countP q < l.countP p := by
  induction l with
  | nil => cases hx
  | cons a t ih =>
    rw [List.countP_cons, List.countP_cons]
    rcases List.mem_cons.mp hx with rfl | hx2
    · have hle : t.countP q ≤ t.countP p :=
        List.countP_mono_left (fun y hy => hpq y (by simp [hy]))
      simp only [hpx, hqx, Bool.false_eq_true, if_false, if_true]
      omega
    · have hlt := ih (fun y hy hqy => hpq y (by simp [hy]) hqy) hx2
      have hif : (if q a = true then 1 else 0) ≤ (if p a = true then 1 else 0) := by
        by_cases hqa : q a = true
        · simp [hqa, hpq a (by simp) hqa]
        · simp [hqa]
      omega

theorem summarize_go (lines : List JLine) :
    ∀ st : AggSummary,
      (∀ v, JLine.val v ∈ lines → v ≠ JsVal.null ∧ v ≠ JsVal.undef) →
      List.Pairwise (fun a b => a.1 ≠ b.1) st.byPackage →
      ∃ st', lines.foldlM summarizeLine st = .ok st'
        ∧ st'.totalEvents = st.totalEvents + lines.countP isValLine
        ∧ byPackageTotal st'.byPackage = byPackageTotal st.byPackage + lines.countP countedLine
        ∧ List.Pairwise (fun a b => a.1 ≠ b.1) st'.byPackage
        ∧ (∀ q, q ∈ st.byPackage.map Prod.fst → q ∈ st'.byPackage.map Prod.fst)
        ∧ (∀ v, JLine.val v ∈ lines → recPkg v ∈ st'.byPackage.map Prod.fst) := by
  induction lines with
  | nil =>
    intro st h hu
    exact ⟨st, rfl, by simp, by simp, hu, fun q hq => hq, by simp⟩
  | cons l rest ih =>
    intro st h hu
    cases l with
    | junk =>
      obtain ⟨st', hrun, h1, h2, h3, h4, h5⟩ :=
        ih st (fun v hv => h v (by simp [hv])) hu
      refine ⟨st', ?_, ?_, ?_, h3, h4, ?_⟩
      · rw [List.foldlM_cons]
        exact hrun
      · rw [h1]
        simp [List.countP_cons, isValLine]
      · rw [h2]
        simp [List.countP_cons, countedLine]
      · intro v hv
        exact h5 v (by
          rcases List.mem_cons.mp hv with hv1 | hv2
          · exact absurd hv1 (by simp)
          · exact hv2)
    | val v =>
      have hv := h v (by simp)
      have hnext : List.Pairwise (fun a b => a.1 ≠ b.1)
          (updateByPackage st.byPackage (recPkg v) (recCategory v) (recOp v)) :=
        updateByPackage_uniq _ _ _ _ hu
      obtain ⟨st', hrun, h1, h2, h3, h4, h5⟩ :=
        ih { totalEvents := st.totalEvents + 1,
             byPackage := updateByPackage st.byPackage (recPkg v) (recCategory v) (recOp v) }
          (fun w hw => h w (by simp [hw])) hnext
      have h1' : st'.totalEvents = st.totalEvents + 1 + rest.countP isValLine := h1
      have h2' : byPackageTotal st'.byPackage =
          byPackageTotal (updateByPackage st.byPackage (recPkg v) (recCategory v) (recOp v)) +
            rest.countP countedLine := h2
      refine ⟨st', ?_, ?_, ?_, h3, ?_, ?_⟩
      · rw [List.foldlM_cons]
        rw [show summarizeLine st (JLine.val v) = summarizeRecord st v from rfl]
        rw [summarizeRecord_ok st v hv.1 hv.2]
        exact hrun
      · rw [h1']
        rw [List.countP_cons]
        rw [show (if isValLine (JLine.val v) = true then 1 else 0) = 1 from rfl]
        omega
      · rw [h2', updateByPackage_total st.byPackage _ _ _ hu, List.countP_cons]
        rw [show (if countedLine (JLine.val v) = true then 1 else 0) =
          (if countedCategory (recCategory v) = true then 1 else 0) from rfl]
        omega
      · intro q hq
        exact h4 q (updateByPackage_mem_mono _ _ _ _ _ hq)
      · intro w hw
        rcases List.mem_cons.mp hw with hw1 | hw2
        · have : w = v := by
            injection hw1
          subst this
          exact h4 _ (updateByPackage_mem_self _ _ _ _)
        · exact h5 w hw2

/-- C10 counterexample: a log whose single line parses to the JSON literal
`null` makes `summarizeJsonl` throw (the unguarded `evt.pkg` read), so no
summary — and in particular no `totalEvents` count — exists for that file. -/
theorem claim_C10_cex : summarizeJsonl [JLine.val JsVal.null] = .error () := rfl

/-- C10 (amended): for every log whose parseable lines are not the JSON
literal `null` (the only parse result on which the record loop throws;
`JSON.parse` can never produce `undefined`), the aggregator returns a
summary in which `totalEvents` is exactly the number of parseable lines,
the counters in `byPackage` sum to the number of parseable records whose
category is one of fs/proc/dns/net (hence `totalEvents` bounds the sum,
strictly when some record — such as the startup record with category
`tamper` — falls outside those four), and every parseable record
contributes a `byPackage` entry for its `pkg` even when no counter is
incremented. -/
theorem claim_C10_amended (lines : List JLine)
    (hjson : ∀ v, JLine.val v ∈ lines → v ≠ JsVal.null ∧ v ≠ JsVal.undef) :
    ∃ st, summarizeJsonl lines = .ok st
      ∧ st.totalEvents = lines.countP isValLine
      ∧ byPackageTotal st.byPackage = lines.countP countedLine
      ∧ byPackageTotal st.byPackage ≤ st.totalEvents
      ∧ (∀ v, JLine.val v ∈ lines → countedCategory (recCategory v) = false →
          byPackageTotal st.byPackage < st.totalEvents)
      ∧ (∀ v, JLine.val v ∈ lines → recPkg v ∈ st.byPackage.map Prod.fst) := by
  obtain ⟨st, hrun, h1, h2, h3, _, h5⟩ :=
    summarize_go lines { totalEvents := 0, byPackage := [] } hjson (by simp)
  have hmono : ∀ x ∈ lines, countedLine x = true → isValLine x = true := by
    intro x _ hx
    cases x with
    | junk => exact absurd hx (by simp [countedLine])
    | val v => rfl
  have h1' : st.totalEvents = lines.countP isValLine := by simpa using h1
  have h2' : byPackageTotal st.byPackage = lines.countP countedLine := by
    simpa [byPackageTotal] using h2
  refine ⟨st, hrun, h1', h2', ?_, ?_, h5⟩
  · rw [h1', h2']
    exact List.countP_mono_left hmono
  · intro v hv hcat
    rw [h1', h2']
    exact countP_lt_of_witness lines isValLine countedLine hmono (JLine.val v) hv rfl
      (by simp [countedLine, hcat])

/-- Witness for C10 on a three-line log: a blank/junk line, the startup
record (category `tamper`), and one fs write. -/
theorem claim_C10_witness :
    (∀ v, JLine.val v ∈ [JLine.junk,
        JLine.val (JsVal.obj [("pkg", JsVal.str "<malwatch>"), ("op", JsVal.str "startup"),
          ("category", JsVal.str "tamper")]),
        JLine.val (JsVal.obj [("pkg", JsVal.str "a"), ("op", JsVal.str "fs.writeFileSync"),
          ("category", JsVal.str "fs")])] → v ≠ JsVal.null ∧ v ≠ JsVal.undef)
  ∧ (∃ st, summarizeJsonl [JLine.junk,
        JLine.val (JsVal.obj [("pkg", JsVal.str "<malwatch>"), ("op", JsVal.str "startup"),
          ("category", JsVal.str "tamper")]),
        JLine.val (JsVal.obj [("pkg", JsVal.str "a"), ("op", JsVal.str "fs.writeFileSync"),
          ("category", JsVal.str "fs")])] = .ok st
      ∧ st.totalEvents = [JLine.junk,
          JLine.val (JsVal.obj [("pkg", JsVal.str "<malwatch>"), ("op", JsVal.str "startup"),
            ("category", JsVal.str "tamper")]),
          JLine.val (JsVal.obj [("pkg", JsVal.str "a"), ("op", JsVal.str "fs.writeFileSync"),
            ("category", JsVal.str "fs")])].countP isValLine
      ∧ byPackageTotal st.byPackage = [JLine.junk,
          JLine.val (JsVal.obj [("pkg", JsVal.str "<malwatch>"), ("op", JsVal.str "startup"),
            ("category", JsVal.str "tamper")]),
          JLine.val (JsVal.obj [("pkg", JsVal.str "a"), ("op", JsVal.str "fs.writeFileSync"),
            ("category", JsVal.str "fs")])].countP countedLine
      ∧ byPackageTotal st.byPackage ≤ st.totalEvents
      ∧ (∀ v, JLine.val v ∈ [JLine.junk,
            JLine.val (JsVal.obj [("pkg", JsVal.str "<malwatch>"), ("op", JsVal.str "startup"),
              ("category", JsVal.str "tamper")]),
            JLine.val (JsVal.obj [("pkg", JsVal.str "a"), ("op", JsVal.str "fs.writeFileSync"),
              ("category", JsVal.str "fs")])] → countedCategory (recCategory v) = false →
          byPackageTotal st.byPackage < st.totalEvents)
      ∧ (∀ v, JLine.val v ∈ [JLine.junk,
            JLine.val (JsVal.obj [("pkg", JsVal.str "<malwatch>"), ("op", JsVal.str "startup"),
              ("category", JsVal.str "tamper")]),
            JLine.val (JsVal.obj [("pkg", JsVal.str "a"), ("op", JsVal.str "fs.writeFileSync"),
              ("category", JsVal.str "fs")])] → recPkg v ∈ st.byPackage.map Prod.fst)) := by
  have hjson : ∀ v, JLine.val v ∈ [JLine.junk,
      JLine.val (JsVal.obj [("pkg", JsVal.str "<malwatch>"), ("op", JsVal.str "startup"),
        ("category", JsVal.str "tamper")]),
      JLine.val (JsVal.obj [("pkg", JsVal.str "a"), ("op", JsVal.str "fs.writeFileSync"),
        ("category", JsVal.str "fs")])] → v ≠ JsVal.null ∧ v ≠ JsVal.undef := by
    intro v hv
    rcases List.mem_cons.mp hv with hv1 | hv2
    · exact absurd hv1 (by simp)
    rcases List.mem_cons.mp hv2 with hv3 | hv4
    · refine ⟨?_, ?_⟩ <;> (injection hv3 with hv5; rw [hv5]; simp)
    rcases List.mem_cons.mp hv4 with hv6 | hv7
    · refine ⟨?_, ?_⟩ <;> (injection hv6 with hv8; rw [hv8]; simp)
    · exact absurd hv7 (by simp)
  exact ⟨hjson, claim_C10_amended _ hjson⟩

theorem bfsAux_nil (g : DepGraph) (univ : Finset RPair) (seen : Finset RPair) :
    bfsAux g univ [] seen = seen := by
  rw [bfsAux]

theorem bfsAux_cons_seen (g : DepGraph) (univ : Finset RPair) (item : RPair)
    (rest : List RPair) (seen : Finset RPair) (h : item ∈ seen) :
    bfsAux g univ (item :: rest) seen = bfsAux g univ rest seen := by
  rw [bfsAux, if_pos h]

theorem bfsAux_cons_new (g : DepGraph) (univ : Finset RPair) (item : RPair)
    (rest : List RPair) (seen : Finset RPair) (h : item ∉ seen) (h2 : item ∈ univ) :
    bfsAux g univ (item :: rest) seen =
      bfsAux g univ (rest ++ (graphChildren g item.2).map (fun c => (item.1, c)))
        (insert item seen) := by
  rw [bfsAux, if_neg h, dif_pos h2]

theorem bfsAux_cons_skip (g : DepGraph) (univ : Finset RPair) (item : RPair)
    (rest : List RPair) (seen : Finset RPair) (h : item ∉ seen) (h2 : item ∉ univ) :
    bfsAux g univ (item :: rest) seen = bfsAux g univ rest seen := by
  rw [bfsAux, if_neg h, dif_neg h2]

/-- Worklist invariant for `bfsAux`: provided the universe is closed under
graph successors and every queued item lies in it, the final seen set
contains the initial seen set and queue, satisfies any
successor-preserved predicate holding initially, and is closed under graph
successors. -/
theorem bfsAux_spec (g : DepGraph) (univ : Finset RPair) (P : RPair → Prop)
    (hUclosed : ∀ it ∈ univ, ∀ c ∈ graphChildren g it.2, (it.1, c) ∈ univ)
    (hPstep : ∀ it, P it → ∀ c ∈ graphChildren g it.2, P (it.1, c)) :
    ∀ (queue : List RPair) (seen : Finset RPair),
      (∀ it ∈ queue, it ∈ univ) →
      (∀ it ∈ queue, P it) →
      (∀ it ∈ seen, P it) →
      (∀ it ∈ seen, ∀ c ∈ graphChildren g it.2,
        (it.1, c) ∈ seen ∨ (it.1, c) ∈ queue) →
      (∀ it ∈ seen, it ∈ bfsAux g univ queue seen) ∧
      (∀ it ∈ queue, it ∈ bfsAux g univ queue seen) ∧
      (∀ it ∈ bfsAux g univ queue seen, P it) ∧
      (∀ it ∈ bfsAux g univ queue seen, ∀ c ∈ graphChildren g it.2,
        (it.1, c) ∈ bfsAux g univ queue seen) := by
  intro queue seen
  induction queue, seen using bfsAux.induct g univ with
  | case1 seen =>
    intro _ _ hsP hcl
    rw [bfsAux_nil]
    refine ⟨fun it h => h, by intro it hit; exact absurd hit (List.not_mem_nil it), hsP, ?_⟩
    intro it hit c hc
    rcases hcl it hit c hc with h | h
    · exact h
    · cases h
  | case2 item rest seen hseen ih =>
    intro hqU hqP hsP hcl
    rw [bfsAux_cons_seen g univ item rest seen hseen]
    obtain ⟨c1, c2, c3, c4⟩ := ih
      (fun it h => hqU it (by simp [h]))
      (fun it h => hqP it (by simp [h]))
      hsP
      (by
        intro it hit c hc
        rcases hcl it hit c hc with h | h
        · exact Or.inl h
        · rcases List.mem_cons.mp h with rfl | h2
          · exact Or.inl hseen
          · exact Or.inr h2)
    refine ⟨c1, ?_, c3, c4⟩
    intro it hit
    rcases List.mem_cons.mp hit with rfl | h2
    · exact c1 it hseen
    · exact c2 it h2
  | case3 item rest seen hseen huniv ih =>
    intro hqU hqP hsP hcl
    rw [bfsAux_cons_new g univ item rest seen hseen huniv]
    obtain ⟨c1, c2, c3, c4⟩ := ih
      (by
        intro it hit
        rcases List.mem_append.mp hit with h | h
        · exact hqU it (by simp [h])
        · rcases List.mem_map.mp h with ⟨c, hc, rfl⟩
          exact hUclosed item huniv c hc)
      (by
        intro it hit
        rcases List.mem_append.mp hit with h | h
        · exact hqP it (by simp [h])
        · rcases List.mem_map.mp h with ⟨c, hc, rfl⟩
          exact hPstep item (hqP item (by simp)) c hc)
      (by
        intro it hit
        rcases Finset.mem_insert.mp hit with rfl | h
        · exact hqP it (by simp)
        · exact hsP it h)
      (by
        intro it hit c hc
        rcases Finset.mem_insert.mp hit with rfl | h
        · refine Or.inr (List.mem_append_right _ ?_)
          exact List.mem_map.mpr ⟨c, hc, rfl⟩
        · rcases hcl it h c hc with h2 | h2
          · exact Or.inl (Finset.mem_insert_of_mem h2)
          · rcases List.mem_cons.mp h2 with heq | h3
            · rw [heq]
              exact Or.inl (Finset.mem_insert_self _ _)
            · exact Or.inr (List.mem_append_left _ h3))
    refine ⟨?_, ?_, c3, c4⟩
    · intro it hit
      exact c1 it (Finset.mem_insert_of_mem hit)
    · intro it hit
      rcases List.mem_cons.mp hit with rfl | h2
      · exact c1 it (Finset.mem_insert_self _ _)
      · exact c2 it (List.mem_append_left _ h2)
  | case4 item rest seen hseen huniv ih =>
    intro hqU hqP hsP hcl
    exact absurd (hqU item (by simp)) huniv

theorem graphChildren_mem_allNames (g : DepGraph) (roots : List String) (x c : String)
    (hc : c ∈ graphChildren g x) : c ∈ allNames g roots := by
  unfold graphChildren at hc
  cases hfind : g.find? (fun e => e.1 == x) with
  | none =>
    rw [hfind] at hc
    cases hc
  | some e =>
    rw [hfind] at hc
    have hc2 : c ∈ e.2 := hc
    have hmem : e ∈ g := List.mem_of_find?_eq_some hfind
    unfold allNames
    refine List.mem_append_right _ ?_
    exact List.mem_flatten.mpr ⟨e.2, List.mem_map.mpr ⟨e, hmem, rfl⟩, hc2⟩

/-- The pairs the BFS processes are exactly the (root, reachable-package)
pairs: the content of the worklist loop of
`computeRootByPackageFromNodeModules`. -/
theorem bfsSeen_iff (g : DepGraph) (roots : List String) (r p : String) :
    (r, p) ∈ bfsSeen g roots ↔ r ∈ roots ∧ Reaches g r p := by
  have hU : ∀ it ∈ bfsUniv g roots, ∀ c ∈ graphChildren g it.2,
      (it.1, c) ∈ bfsUniv g roots := by
    intro it hit c hc
    unfold bfsUniv at hit ⊢
    rw [List.mem_toFinset] at hit ⊢
    rcases it with ⟨a, b⟩
    rw [List.pair_mem_product] at hit ⊢
    exact ⟨hit.1, graphChildren_mem_allNames g roots b c hc⟩
  have hstep : ∀ it : RPair, (it.1 ∈ roots ∧ Reaches g it.1 it.2) →
      ∀ c ∈ graphChildren g it.2, ((it.1, c) : RPair).1 ∈ roots ∧
        Reaches g ((it.1, c) : RPair).1 ((it.1, c) : RPair).2 := by
    intro it hit c hc
    exact ⟨hit.1, Reaches.step hit.2 hc⟩
  obtain ⟨h1, h2, h3, h4⟩ := bfsAux_spec g (bfsUniv g roots)
    (fun it => it.1 ∈ roots ∧ Reaches g it.1 it.2) hU hstep
    (roots.map fun a => (a, a)) ∅
    (by
      intro it hit
      rcases List.mem_map.mp hit with ⟨a, ha, rfl⟩
      unfold bfsUniv
      rw [List.mem_toFinset, List.pair_mem_product]
      exact ⟨ha, by
        unfold allNames
        exact List.mem_append_left _ (List.mem_append_left _ ha)⟩)
    (by
      intro it hit
      rcases List.mem_map.mp hit with ⟨a, ha, rfl⟩
      exact ⟨ha, Reaches.refl a⟩)
    (by simp)
    (by simp)
  constructor
  · intro hmem
    exact h3 _ hmem
  · rintro ⟨hr, hreach⟩
    induction hreach with
    | refl =>
      exact h2 (r, r) (List.mem_map.mpr ⟨r, hr, rfl⟩)
    | step hab hc ihab =>
      exact h4 _ ihab _ hc

theorem sortStr_sorted (l : List String) : (sortStr l).Sorted (· ≤ ·) :=
  List.sorted_insertionSort _ l

theorem sortStr_perm (l : List String) : List.Perm (sortStr l) l :=
  List.perm_insertionSort _ l

theorem sortStr_mem (l : List String) (x : String) : x ∈ sortStr l ↔ x ∈ l :=
  (sortStr_perm l).mem_iff

theorem setAdd_mem (s : List String) (x y : String) :
    y ∈ setAdd s x ↔ y ∈ s ∨ y = x := by
  unfold setAdd
  by_cases h : s.contains x = true
  · rw [if_pos h]
    constructor
    · exact Or.inl
    · rintro (hy | rfl)
      · exact hy
      · exact List.elem_iff.mp h
  · rw [if_neg h]
    simp

theorem setAdd_nodup (s : List String) (x : String) (h : s.Nodup) : (setAdd s x).Nodup := by
  unfold setAdd
  by_cases hc : s.contains x = true
  · rw [if_pos hc]
    exact h
  · rw [if_neg hc]
    rw [List.nodup_append]
    refine ⟨h, List.nodup_singleton x, ?_⟩
    intro a ha hb
    rcases List.mem_singleton.mp hb with rfl
    exact hc (List.elem_iff.mpr ha)

theorem setAddAll_nodup (xs : List String) :
    ∀ s : List String, s.Nodup → (setAddAll s xs).Nodup := by
  induction xs with
  | nil => intro s h; exact h
  | cons x xs ih =>
    intro s h
    exact ih (setAdd s x) (setAdd_nodup s x h)

theorem setAddAll_mem (xs : List String) :
    ∀ (s : List String) (y : String), y ∈ setAddAll s xs ↔ y ∈ s ∨ y ∈ xs := by
  induction xs with
  | nil => intro s y; simp [setAddAll]
  | cons x xs ih =>
    intro s y
    show y ∈ setAddAll (setAdd s x) xs ↔ _
    rw [ih (setAdd s x) y, setAdd_mem]
    constructor
    · rintro ((hy | rfl) | hy)
      · exact Or.inl hy
      · exact Or.inr (by simp)
      · exact Or.inr (by simp [hy])
    · rintro (hy | hy)
      · exact Or.inl (Or.inl hy)
      · rcases List.mem_cons.mp hy with rfl | hy2
        · exact Or.inl (Or.inr rfl)
        · exact Or.inr hy2

theorem collectDirectRoots_sorted (m : Option TopManifest) :
    (collectDirectRootsFromPackageJson m).Sorted (· ≤ ·) := by
  cases m with
  | none => exact List.sorted_nil
  | some t => exact sortStr_sorted _

theorem collectDirectRoots_nodup (m : Option TopManifest) :
    (collectDirectRootsFromPackageJson m).Nodup := by
  cases m with
  | none => exact List.nodup_nil
  | some t => exact (sortStr_perm _).nodup_iff.mpr (setAddAll_nodup _ [] List.nodup_nil)

theorem lookupAssoc_map_graph {α : Type} (packages : List String) (f : String → α) (p : String)
    (hp : p ∈ packages) :
    lookupAssoc (packages.map (fun q => (q, f q))) p = some (f p) := by
  induction packages with
  | nil => cases hp
  | cons a t ih =>
    by_cases h : a = p
    · subst h
      unfold lookupAssoc
      rw [List.map_cons, List.find?_cons_of_pos _ (by simp)]
      rfl
    · unfold lookupAssoc
      rw [List.map_cons, List.find?_cons_of_neg _ (by simpa using h)]
      refine ih ?_
      rcases List.mem_cons.mp hp with rfl | hp2
      · exact absurd rfl h
      · exact hp2

theorem lookupAssoc_cons {α : Type} (k : String) (a : α) (t : List (String × α)) (q : String) :
    lookupAssoc ((k, a) :: t) q = if k = q then some a else lookupAssoc t q := by
  unfold lookupAssoc
  by_cases h : k = q
  · rw [List.find?_cons_of_pos _ (by simpa using h), if_pos h]
    rfl
  · rw [List.find?_cons_of_neg _ (by simpa using h), if_neg h]

theorem lookupAssoc_map_update {α : Type} (l : List (String × α)) (r : String) (v : α)
    (q : String) :
    lookupAssoc (l.map (fun kv => if kv.1 == r then (r, v) else kv)) q =
      if q = r then (lookupAssoc l r).map (fun _ => v) else lookupAssoc l q := by
  induction l with
  | nil =>
    by_cases h : q = r <;> simp [lookupAssoc, h]
  | cons kv t ih =>
    rcases kv with ⟨k, a⟩
    rw [List.map_cons]
    by_cases hkv : k = r
    · rw [show (if ((k, a) : String × α).1 == r then (r, v) else (k, a)) = (r, v) from by
        simp [hkv]]
      rw [lookupAssoc_cons]
      by_cases hq : q = r
      · rw [if_pos hq.symm, if_pos hq, lookupAssoc_cons, if_pos hkv]
        rfl
      · rw [if_neg (fun h : r = q => hq h.symm), ih, if_neg hq, if_neg hq,
          lookupAssoc_cons, if_neg (fun h : k = q => hq (h.symm.trans hkv))]
    · rw [show (if ((k, a) : String × α).1 == r then (r, v) else (k, a)) = (k, a) from by
        simp [hkv]]
      rw [lookupAssoc_cons]
      by_cases hq : q = r
      · rw [if_neg (fun h : k = q => hkv (h.trans hq)), ih, if_pos hq, if_pos hq,
          lookupAssoc_cons, if_neg hkv]
      · by_cases hk : k = q
        · rw [if_pos hk, if_neg hq, lookupAssoc_cons, if_pos hk]
        · rw [if_neg hk, if_neg hq, lookupAssoc_cons, if_neg hk, ih, if_neg hq]

/-- Effect of the direct-roots preference pass of
`computeRootByPackageFromNodeModules` on lookups, for a duplicate-free root
list. -/
theorem fixup_lookup (R : List String) (packages : List String) (p : String) :
    ∀ base : List (String × Option String), R.Nodup →
    lookupAssoc (R.foldl (fun out r =>
        if packages.contains r && (lookupAssoc out r == some none) then
          out.map (fun kv => if kv.1 == r then (r, some r) else kv)
        else out) base) p =
      if p ∈ R ∧ packages.contains p = true ∧ lookupAssoc base p = some none
      then some (some p) else lookupAssoc base p := by
  induction R with
  | nil =>
    intro base _
    rw [List.foldl_nil, if_neg (by simp)]
  | cons r R ih =>
    intro base hR
    rcases List.nodup_cons.mp hR with ⟨hrR, hR2⟩
    rw [List.foldl_cons]
    have hbase1 : ∀ q, lookupAssoc
        (if packages.contains r && (lookupAssoc base r == some none) then
          base.map (fun kv => if kv.1 == r then (r, some r) else kv)
        else base) q =
        if q = r ∧ packages.contains r = true ∧ lookupAssoc base r = some none
        then some (some r) else lookupAssoc base q := by
      intro q
      by_cases hg : (packages.contains r && (lookupAssoc base r == some none)) = true
      · rw [if_pos hg]
        rcases (by simpa using hg :
          packages.contains r = true ∧ lookupAssoc base r = some none) with ⟨hg1, hg2'⟩
        rw [lookupAssoc_map_update]
        by_cases hq : q = r
        · rw [if_pos hq, if_pos ⟨hq, hg1, hg2'⟩, hg2']
          rfl
        · rw [if_neg hq, if_neg (fun hcon => hq hcon.1)]
      · rw [if_neg hg]
        by_cases hq : q = r
        · rw [if_neg]
          rintro ⟨rfl, hc1, hc2⟩
          exact hg (by rw [hc1, hc2]; rfl)
        · rw [if_neg (fun hcon => hq hcon.1)]
    rw [ih _ hR2]
    by_cases hp : p = r
    · subst hp
      rw [if_neg (fun hcon => hrR hcon.1), hbase1 p]
      by_cases hcond : packages.contains p = true ∧ lookupAssoc base p = some none
      · rw [if_pos ⟨rfl, hcond.1, hcond.2⟩, if_pos ⟨by simp, hcond.1, hcond.2⟩]
      · rw [if_neg (fun hcon => hcond hcon.2), if_neg (fun hcon => hcond hcon.2)]
    · have hb1 : lookupAssoc (if packages.contains r && (lookupAssoc base r == some none) then
          base.map (fun kv => if kv.1 == r then (r, some r) else kv)
        else base) p = lookupAssoc base p := by
        rw [hbase1 p, if_neg (fun hcon => hp hcon.1)]
      rw [hb1]
      by_cases hPR : p ∈ R
      · by_cases hcond : packages.contains p = true ∧ lookupAssoc base p = some none
        · rw [if_pos ⟨hPR, hcond.1, hcond.2⟩, if_pos ⟨by simp [hPR], hcond.1, hcond.2⟩]
        · rw [if_neg (fun hcon => hcond hcon.2), if_neg fun hcon => hcond hcon.2]
      · rw [if_neg (fun hcon => hPR hcon.1),
          if_neg (fun hcon =>
            (List.mem_cons.mp hcon.1).elim (fun h => hp h) (fun h => hPR h))]

/-- Characterization of a single lookup in the present-`node_modules` branch
of `computeRootByPackageFromNodeModules`, for any duplicate-free direct-root
list. -/
theorem computeRoot_lookup_char (R : List String) (g : DepGraph)
    (packages : List String) (p : String) (hp : p ∈ packages) (hRn : R.Nodup) :
    ∃ v, lookupAssoc (R.foldl (fun out r =>
        if packages.contains r && (lookupAssoc out r == some none) then
          out.map (fun kv => if kv.1 == r then (r, some r) else kv)
        else out)
        (packages.map (fun q => (q, rootWalkValue R g q)))) p = some v ∧
      (strStartsWith p "<" = true → v = if p ∈ R then some p else none) ∧
      (strStartsWith p "<" = false →
        ((¬ ∃ r ∈ R, Reaches g r p) → v = none) ∧
        ((∃ r ∈ R, Reaches g r p) →
          ∃ rs : List String, v = some (joinBar rs) ∧ rs ≠ [] ∧
            rs.Sorted (fun a b => a ≤ b) ∧ rs.Nodup ∧
            (∀ r, r ∈ rs ↔ r ∈ R ∧ Reaches g r p))) := by
  rw [fixup_lookup R packages p (packages.map (fun q => (q, rootWalkValue R g q))) hRn,
    lookupAssoc_map_graph packages (fun q => rootWalkValue R g q) p hp]
  by_cases hlt : strStartsWith p "<" = true
  · have hv : rootWalkValue R g p = none := by
      unfold rootWalkValue
      rw [if_pos hlt]
    rw [hv]
    by_cases hpR : p ∈ R
    · rw [if_pos ⟨hpR, by simp [hp], rfl⟩]
      exact ⟨some p, rfl, fun _ => (if_pos hpR).symm, fun hf => nomatch hlt.symm.trans hf⟩
    · rw [if_neg (fun hcon => hpR hcon.1)]
      exact ⟨none, rfl, fun _ => (if_neg hpR).symm, fun hf => nomatch hlt.symm.trans hf⟩
  · have hvdef : rootWalkValue R g p =
        (if R.filter (fun r => decide ((r, p) ∈ bfsSeen g R)) = [] then none
         else some (joinBar (sortStr
           (R.filter (fun r => decide ((r, p) ∈ bfsSeen g R)))))) := by
      unfold rootWalkValue
      rw [if_neg hlt]
    by_cases hrs : R.filter (fun r => decide ((r, p) ∈ bfsSeen g R)) = []
    · have hv : rootWalkValue R g p = none := by rw [hvdef, if_pos hrs]
      rw [hv]
      have hnR : p ∉ R := by
        intro hpR
        have hmem : p ∈ R.filter (fun r => decide ((r, p) ∈ bfsSeen g R)) :=
          List.mem_filter.mpr ⟨hpR,
            decide_eq_true ((bfsSeen_iff g R p p).mpr ⟨hpR, Reaches.refl p⟩)⟩
        rw [hrs] at hmem
        cases hmem
      rw [if_neg (fun hcon => hnR hcon.1)]
      refine ⟨none, rfl, fun ht => absurd ht hlt, fun _ => ⟨fun _ => rfl, ?_⟩⟩
      rintro ⟨r, hrR, hreach⟩
      have hmem : r ∈ R.filter (fun r => decide ((r, p) ∈ bfsSeen g R)) :=
        List.mem_filter.mpr ⟨hrR, decide_eq_true ((bfsSeen_iff g R r p).mpr ⟨hrR, hreach⟩)⟩
      rw [hrs] at hmem
      cases hmem
    · have hv : rootWalkValue R g p = some (joinBar (sortStr
          (R.filter (fun r => decide ((r, p) ∈ bfsSeen g R))))) := by
        rw [hvdef, if_neg hrs]
      rw [hv]
      rw [if_neg (fun hcon => by simpa using hcon.2.2)]
      refine ⟨_, rfl, fun ht => absurd ht hlt, fun _ => ⟨?_, ?_⟩⟩
      · intro hne
        obtain ⟨r, hr⟩ := List.exists_mem_of_ne_nil _ hrs
        rcases List.mem_filter.mp hr with ⟨hrR, hdec⟩
        exact (hne ⟨r, hrR, ((bfsSeen_iff g R r p).mp (of_decide_eq_true hdec)).2⟩).elim
      · intro _
        refine ⟨sortStr (R.filter (fun r => decide ((r, p) ∈ bfsSeen g R))), rfl, ?_,
          sortStr_sorted _, ?_, ?_⟩
        · intro h0
          exact hrs (List.Perm.eq_nil (h0 ▸ sortStr_perm
            (R.filter (fun r => decide ((r, p) ∈ bfsSeen g R)))).symm)
        · exact (sortStr_perm _).nodup_iff.mpr (hRn.filter _)
        · intro r
          rw [sortStr_mem, List.mem_filter]
          constructor
          · rintro ⟨h1, h2⟩
            exact ⟨h1, ((bfsSeen_iff g R r p).mp (of_decide_eq_true h2)).2⟩
          · rintro ⟨h1, h2⟩
            exact ⟨h1, decide_eq_true ((bfsSeen_iff g R r p).mpr ⟨h1, h2⟩)⟩

/-- C9 counterexample to the claim as stated: `"a"` is a queried direct
root (it is a top-level dependency), yet with `node_modules` missing
`computeRootByPackageFromNodeModules` maps it to null rather than to a
non-null value that includes itself. -/
theorem claim_C9_cex :
    collectDirectRootsFromPackageJson (some ⟨["a"], [], [], []⟩) = ["a"] ∧
    computeRootByPackageFromNodeModules ⟨some ⟨["a"], [], [], []⟩, none⟩ ["a"] =
      [("a", none)] := by
  exact ⟨rfl, rfl⟩

/-- C9 (amended): with `node_modules` missing every queried package — direct
roots included — resolves to null.  With `node_modules` present, a queried
package `p` resolves to: for a `<`-prefixed name, `p` itself when `p` is a
direct root and null otherwise; for an ordinary name, null when no direct
root reaches `p` in the installed dependency graph, and otherwise the
`|`-join of a sorted, duplicate-free list holding exactly the direct roots
from which `p` is reachable (so a queried direct root is covered by the
reachable case, via reachability from itself). -/
theorem claim_C9_amended (layout : ProjectLayout) (packages : List String)
    (p : String) (hp : p ∈ packages) :
    (layout.nodeModules = none →
      lookupAssoc (computeRootByPackageFromNodeModules layout packages) p = some none) ∧
    (∀ manifests, layout.nodeModules = some manifests →
      ∃ v, lookupAssoc (computeRootByPackageFromNodeModules layout packages) p = some v ∧
        (strStartsWith p "<" = true →
          v = if p ∈ collectDirectRootsFromPackageJson layout.topManifest
              then some p else none) ∧
        (strStartsWith p "<" = false →
          ((¬ ∃ r ∈ collectDirectRootsFromPackageJson layout.topManifest,
              Reaches (buildGraphFromNodeModules manifests) r p) → v = none) ∧
          ((∃ r ∈ collectDirectRootsFromPackageJson layout.topManifest,
              Reaches (buildGraphFromNodeModules manifests) r p) →
            ∃ rs : List String, v = some (joinBar rs) ∧ rs ≠ [] ∧
              rs.Sorted (fun a b => a ≤ b) ∧ rs.Nodup ∧
              (∀ r, r ∈ rs ↔ r ∈ collectDirectRootsFromPackageJson layout.topManifest ∧
                Reaches (buildGraphFromNodeModules manifests) r p)))) := by
  rcases layout with ⟨tm, nm⟩
  constructor
  · intro hnm
    have hnm' : nm = none := hnm
    subst hnm'
    exact lookupAssoc_map_graph packages (fun _ => (none : Option String)) p hp
  · intro manifests hnm
    have hnm' : nm = some manifests := hnm
    subst hnm'
    exact computeRoot_lookup_char (collectDirectRootsFromPackageJson tm)
      (buildGraphFromNodeModules manifests) packages p hp (collectDirectRoots_nodup tm)

/-- C9 witness: in a project whose top-level manifest depends on `a` and
whose installed `a` depends on `b`, querying `b` resolves to root `a`. -/
theorem claim_C9_witness :
    ("b" : String) ∈ ["a", "b", "z"] ∧
    lookupAssoc (computeRootByPackageFromNodeModules
        ⟨some ⟨["a"], [], [], []⟩, some [⟨"a", ["b"], [], []⟩]⟩ ["a", "b", "z"]) "b" =
      some (some "a") := by
  refine ⟨by decide, ?_⟩
  have h := claim_C9_amended ⟨some ⟨["a"], [], [], []⟩, some [⟨"a", ["b"], [], []⟩]⟩
    ["a", "b", "z"] "b" (by decide)
  obtain ⟨v, hv, _, hchar⟩ := h.2 [⟨"a", ["b"], [], []⟩] rfl
  have hreach : Reaches (buildGraphFromNodeModules [⟨"a", ["b"], [], []⟩]) "a" "b" :=
    Reaches.step (Reaches.refl "a") (by decide)
  obtain ⟨hempty, hex⟩ := hchar (by decide)
  obtain ⟨rs, hvrs, hne, hsort, hnd, hmem⟩ := hex ⟨"a", by decide, hreach⟩
  have hsub : ∀ r ∈ rs, r = "a" := by
    intro r hr
    have h1 := ((hmem r).mp hr).1
    have h2 : r ∈ (["a"] : List String) := h1
    simpa using h2
  have hain : "a" ∈ rs := (hmem "a").mpr ⟨by decide, hreach⟩
  have hrsa : rs = ["a"] := by
    rcases rs with _ | ⟨x, rs2⟩
    · exact absurd rfl hne
    · have hx : x = "a" := hsub x (List.mem_cons_self _ _)
      subst hx
      rcases rs2 with _ | ⟨y, rs3⟩
      · rfl
      · have hy : y = "a" := hsub y (List.mem_cons_of_mem _ (List.mem_cons_self _ _))
        subst hy
        exact absurd (List.mem_cons_self _ _) (List.nodup_cons.mp hnd).1
  rw [hv, hvrs, hrsa]
  rfl

end Malwatch
